import Mathlib

/-!
Shallow embedding of the Othello game engine from `othello.py`
(`GameBoard`, `Square`, `GamePiece`), together with theorems checking the
natural-language specification against it.

Conventions of the embedding:
* Board squares are identified by integer indices `0 .. n^2 - 1`,
  row-major with row 0 at the bottom (index `i` has row `i / n`,
  column `i % n`), exactly as in the source.
* A tile color is `Color.black` or `Color.white`; the board contents
  (`self.pieces`, a list of `GamePiece`-or-`None`) is modelled as a total
  function `ℤ → Option Color`; a `GamePiece` at index `i` always has
  `location = i`, so the capture lists (lists of pieces in the source)
  are modelled as lists of locations.
* Python exceptions (failed `assert`, `KeyError`, `AttributeError`) are
  modelled with `Except GameState`: `.error s` means the call raised with
  the object left in state `s` (in-place mutations made before the raise
  are preserved in `s`, as they are in Python).
* `range(start, stop, step)` is modelled exactly by `pyRange`.
-/

namespace Othello

/-- Tile color, `"black"`/`"white"` in the source. -/
inductive Color where
  | black : Color
  | white : Color
deriving DecidableEq, Repr

/-- `GamePiece.change_color`: black to white, white to black. -/
def Color.change_color : Color → Color
  | Color.black => Color.white
  | Color.white => Color.black

/-- The eight compass directions `"n" .. "nw"` used by the source. -/
inductive Direction where
  | n | ne | e | se | s | sw | w | nw
deriving DecidableEq, Repr

/-- The direction tuple iterated over in `GameBoard.all_can_capture`. -/
def allDirections : List Direction :=
  [Direction.n, Direction.ne, Direction.e, Direction.se,
   Direction.s, Direction.sw, Direction.w, Direction.nw]

/-- `GameBoard.set_increment`: signed index delta of a one-step move
in the given direction on a board of side `nn`. -/
def set_increment (nn : ℤ) (d : Direction) : ℤ :=
  match d with
  | Direction.n => nn
  | Direction.s => -nn
  | Direction.e => 1
  | Direction.w => -1
  | Direction.ne => nn + 1
  | Direction.nw => nn - 1
  | Direction.se => -(nn - 1)
  | Direction.sw => -(nn + 1)

/-- `GameBoard.set_max_min`: the max (or min) index bounding iteration
from `location` along `direction`, as computed by the source. -/
def set_max_min (nn location : ℤ) (d : Direction) : ℤ :=
  let row_num := location / nn
  let row_start := row_num * nn
  let max_steps := nn - 1
  let row_end := row_start + max_steps
  let board_max := nn ^ 2 - 1
  let board_min := 0
  match d with
  | Direction.n => board_max
  | Direction.s => board_min
  | Direction.e => row_end
  | Direction.w => row_start
  | Direction.ne =>
      let steps := max_steps - location % nn
      let mx := row_end + steps * nn
      if board_max < mx then board_max else mx
  | Direction.se =>
      let steps := max_steps - location % nn
      let mn := row_end - steps * nn
      if mn < board_min then board_min else mn
  | Direction.nw =>
      let steps := location - row_start
      let mx := row_start + steps * nn
      if board_max < mx then board_max else mx
  | Direction.sw =>
      let steps := location - row_start
      let mn := row_start - steps * nn
      if mn < board_min then board_min else mn

/-- Number of values produced by Python `range(start, stop, step)`. -/
def pyRangeLen (start stop step : ℤ) : ℕ :=
  if 0 < step then ((stop - start + step - 1) / step).toNat
  else if step < 0 then ((start - stop + (-step) - 1) / (-step)).toNat
  else 0

/-- The list of values of Python `range(start, stop, step)`. -/
def pyRange (start stop step : ℤ) : List ℤ :=
  (List.range (pyRangeLen start stop step)).map (fun (j : ℕ) => start + (j : ℤ) * step)

/-- The scanning loop of `GameBoard.can_capture_in_direction`:
walks the candidate locations, returns `[]` at the first empty cell
(the `return []` in the loop), accumulates opponent tiles, and stops
after appending the first own-color tile (the `break`). -/
def scanRange (pieces : ℤ → Option Color) (turn : Color) :
    List ℤ → List ℤ → List ℤ
  | [], captured => captured
  | loc :: rest, captured =>
    match pieces loc with
    | none => []
    | some c =>
      if c ≠ turn then scanRange pieces turn rest (captured ++ [loc])
      else captured ++ [loc]

/-- `GameBoard.can_capture_in_direction`: locations of tiles captured
from `location` in direction `d` (empty if no capture is possible). -/
def can_capture_in_direction (nn : ℤ) (pieces : ℤ → Option Color)
    (turn : Color) (location : ℤ) (d : Direction) : List ℤ :=
  let inc := set_increment nn d
  let end0 := set_max_min nn location d
  let endAdj := if inc ≤ 0 then end0 - 1 else end0 + 1
  let start := location + inc
  let captured := scanRange pieces turn (pyRange start endAdj inc) []
  match captured.getLast? with
  | none => []
  | some lastLoc =>
      if pieces lastLoc = some turn then captured.dropLast else []

/-- `GameBoard.all_can_capture`: concatenation of the captures in all
eight directions; empty if the square is occupied. -/
def all_can_capture (nn : ℤ) (pieces : ℤ → Option Color)
    (turn : Color) (location : ℤ) : List ℤ :=
  match pieces location with
  | some _ => []
  | none => (allDirections.map (can_capture_in_direction nn pieces turn location)).flatten

/-- `GameBoard.find_valid_moves`: association list (in square-index
order, like Python dict insertion order) from each empty square with a
non-empty capture list to that list. -/
def find_valid_moves (nn : ℤ) (pieces : ℤ → Option Color)
    (turn : Color) : List (ℤ × List ℤ) :=
  (List.range (nn ^ 2).toNat).filterMap (fun (i : ℕ) =>
    let can_capture := all_can_capture nn pieces turn (i : ℤ)
    if can_capture = [] then none else some ((i : ℤ), can_capture))

/-- `GameBoard.choose_move`: the first key of the table with the
strictly largest capture-list length; `-1` if no key has positive
length (in particular on the empty table). -/
def choose_move (table : List (ℤ × List ℤ)) : ℤ :=
  (table.foldl
    (fun acc kv => if (kv.2.length : ℤ) > acc.2 then (kv.1, (kv.2.length : ℤ)) else acc)
    (-1, 0)).1

/-! ### Grid semantics of the eight directions

A one-step move in a direction changes the row by `dr` and the column by
`dc`; `set_increment` equals `dr * nn + dc`.  `onBoard nn r c d k` says the
cell reached from `(r, c)` by `k` one-step moves in direction `d` is still
on the `nn × nn` grid (no edge crossed, no row wraparound). -/

/-- Row delta of a one-step move. -/
def Direction.dr : Direction → ℤ
  | Direction.n => 1
  | Direction.s => -1
  | Direction.e => 0
  | Direction.w => 0
  | Direction.ne => 1
  | Direction.nw => 1
  | Direction.se => -1
  | Direction.sw => -1

/-- Column delta of a one-step move. -/
def Direction.dc : Direction → ℤ
  | Direction.n => 0
  | Direction.s => 0
  | Direction.e => 1
  | Direction.w => -1
  | Direction.ne => 1
  | Direction.nw => -1
  | Direction.se => 1
  | Direction.sw => -1

/-- The cell reached from `(r, c)` by `k` steps in direction `d` is on the
board. -/
def onBoard (nn r c : ℤ) (d : Direction) (k : ℤ) : Prop :=
  0 ≤ r + k * d.dr ∧ r + k * d.dr < nn ∧ 0 ≤ c + k * d.dc ∧ c + k * d.dc < nn

instance (nn r c : ℤ) (d : Direction) (k : ℤ) : Decidable (onBoard nn r c d k) := by
  unfold onBoard; infer_instance

lemma set_increment_eq (nn : ℤ) (d : Direction) :
    set_increment nn d = d.dr * nn + d.dc := by
  cases d <;> simp [set_increment, Direction.dr, Direction.dc] <;> ring

lemma rowcol_div (nn r c : ℤ) (hn : 0 < nn) (hc : 0 ≤ c) (hc' : c < nn) :
    (r * nn + c) / nn = r := by
  rw [add_comm, Int.add_mul_ediv_right _ _ (ne_of_gt hn),
    Int.ediv_eq_zero_of_lt hc hc', zero_add]

lemma rowcol_mod (nn r c : ℤ) (hn : 0 < nn) (hc : 0 ≤ c) (hc' : c < nn) :
    (r * nn + c) % nn = c := by
  rw [add_comm, Int.add_mul_emod_self]
  exact Int.emod_eq_of_lt hc hc'

lemma pyRangeLen_lt_iff_pos (start stop step : ℤ) (hstep : 0 < step) (j : ℕ) :
    j < pyRangeLen start stop step ↔ start + (j : ℤ) * step < stop := by
  unfold pyRangeLen
  rw [if_pos hstep, Int.lt_toNat, Int.lt_iff_add_one_le,
    Int.le_ediv_iff_mul_le hstep]
  constructor <;> intro h <;> nlinarith

lemma pyRangeLen_lt_iff_neg (start stop step : ℤ) (hstep : step < 0) (j : ℕ) :
    j < pyRangeLen start stop step ↔ stop < start + (j : ℤ) * step := by
  unfold pyRangeLen
  rw [if_neg (by linarith), if_pos hstep, Int.lt_toNat, Int.lt_iff_add_one_le,
    Int.le_ediv_iff_mul_le (by linarith : (0 : ℤ) < -step)]
  constructor <;> intro h <;> nlinarith

set_option maxHeartbeats 1600000 in
/-- The central adequacy fact about `set_max_min` and `set_increment`: the
`j`-th value visited by the `range` scan in `can_capture_in_direction`
(i.e. `location + (j+1) * inc` lying inside the adjusted stop bound) is
precisely the cell reached by `j+1` legal one-step moves in that
direction.  Stated for `location = r * nn + c` with `0 ≤ r, c < nn`. -/
lemma len_iff (nn r c : ℤ) (hn : 2 ≤ nn) (hr : 0 ≤ r) (hr' : r < nn)
    (hc : 0 ≤ c) (hc' : c < nn) (d : Direction) (j : ℕ) :
    (j < pyRangeLen (r * nn + c + set_increment nn d)
      (if set_increment nn d ≤ 0 then set_max_min nn (r * nn + c) d - 1
       else set_max_min nn (r * nn + c) d + 1)
      (set_increment nn d))
      ↔ onBoard nn r c d ((j : ℤ) + 1) := by
  have hn0 : (0 : ℤ) < nn := by linarith
  have hdiv : (r * nn + c) / nn = r := rowcol_div nn r c hn0 hc hc'
  have hmod : (r * nn + c) % nn = c := rowcol_mod nn r c hn0 hc hc'
  cases d
  case n =>
    rw [show set_increment nn Direction.n = nn from rfl,
      if_neg (by linarith), show set_max_min nn (r * nn + c) Direction.n = nn ^ 2 - 1 from rfl,
      pyRangeLen_lt_iff_pos _ _ _ hn0]
    simp only [onBoard, Direction.dr, Direction.dc, mul_one, mul_zero, add_zero]
    constructor
    · intro h
      refine ⟨by linarith, ?_, hc, hc'⟩
      by_contra hcon
      push_neg at hcon
      have := mul_le_mul_of_nonneg_right hcon (le_of_lt hn0)
      nlinarith
    · rintro ⟨-, h2, -, -⟩
      have : (r + ((j : ℤ) + 1)) * nn ≤ (nn - 1) * nn :=
        mul_le_mul_of_nonneg_right (by linarith) (le_of_lt hn0)
      nlinarith
  case s =>
    rw [show set_increment nn Direction.s = -nn from rfl,
      if_pos (by linarith), show set_max_min nn (r * nn + c) Direction.s = 0 from rfl,
      pyRangeLen_lt_iff_neg _ _ _ (by linarith)]
    simp only [onBoard, Direction.dr, Direction.dc, mul_neg, mul_one, mul_zero, add_zero]
    constructor
    · intro h
      refine ⟨?_, by linarith, hc, hc'⟩
      by_contra hcon
      push_neg at hcon
      have : (r - ((j : ℤ) + 1)) ≤ -1 := by linarith
      have := mul_le_mul_of_nonneg_right this (le_of_lt hn0)
      nlinarith
    · rintro ⟨h1, -, -, -⟩
      have : (0 : ℤ) ≤ (r - ((j : ℤ) + 1)) * nn :=
        mul_nonneg (by linarith) (le_of_lt hn0)
      nlinarith
  case e =>
    rw [show set_increment nn Direction.e = 1 from rfl, if_neg (by norm_num)]
    have hmx : set_max_min nn (r * nn + c) Direction.e = r * nn + (nn - 1) := by
      simp only [set_max_min, hdiv]
    rw [hmx, pyRangeLen_lt_iff_pos _ _ _ (by norm_num)]
    simp only [onBoard, Direction.dr, Direction.dc, mul_one, mul_zero, add_zero]
    constructor
    · intro h
      exact ⟨hr, hr', by linarith, by linarith⟩
    · rintro ⟨-, -, -, h4⟩
      linarith
  case w =>
    rw [show set_increment nn Direction.w = -1 from rfl, if_pos (by norm_num)]
    have hmx : set_max_min nn (r * nn + c) Direction.w = r * nn := by
      simp only [set_max_min, hdiv]
    rw [hmx, pyRangeLen_lt_iff_neg _ _ _ (by norm_num)]
    simp only [onBoard, Direction.dr, Direction.dc, mul_neg, mul_one, mul_zero, add_zero]
    constructor
    · intro h
      exact ⟨hr, hr', by linarith, by linarith⟩
    · rintro ⟨-, -, h3, -⟩
      linarith
  case ne =>
    rw [show set_increment nn Direction.ne = nn + 1 from rfl, if_neg (by linarith)]
    have hmx : set_max_min nn (r * nn + c) Direction.ne =
        (if nn ^ 2 - 1 < r * nn + (nn - 1) + (nn - 1 - c) * nn
         then nn ^ 2 - 1 else r * nn + (nn - 1) + (nn - 1 - c) * nn) := by
      simp only [set_max_min, hdiv, hmod]
    rw [hmx, pyRangeLen_lt_iff_pos _ _ _ (by linarith)]
    simp only [onBoard, Direction.dr, Direction.dc, mul_one]
    have key : ∀ P : Prop, (P ↔ (r * nn + c + ((j : ℤ) + 1) * (nn + 1) ≤ nn ^ 2 - 1 ∧
        r * nn + c + ((j : ℤ) + 1) * (nn + 1) ≤ r * nn + (nn - 1) + (nn - 1 - c) * nn)) →
        ((r * nn + c + (nn + 1) + (j : ℤ) * (nn + 1) <
          (if nn ^ 2 - 1 < r * nn + (nn - 1) + (nn - 1 - c) * nn
           then nn ^ 2 - 1 else r * nn + (nn - 1) + (nn - 1 - c) * nn) + 1) ↔ P) := by
      intro P hP
      rw [hP]
      split_ifs with hb
      · constructor
        · intro h; exact ⟨by linarith, by linarith⟩
        · rintro ⟨h1, -⟩; linarith
      · constructor
        · intro h; exact ⟨by linarith, by linarith⟩
        · rintro ⟨-, h2⟩; linarith
    rw [key _ (Iff.rfl)]
    constructor
    · rintro ⟨h1, h2⟩
      have hck : c + ((j : ℤ) + 1) ≤ nn - 1 := by
        by_contra hcon
        push_neg at hcon
        have : nn - 1 + 1 ≤ c + ((j : ℤ) + 1) := by linarith
        have := mul_le_mul_of_nonneg_right this (show (0:ℤ) ≤ nn + 1 by linarith)
        nlinarith
      have hrk : r + ((j : ℤ) + 1) ≤ nn - 1 := by
        by_contra hcon
        push_neg at hcon
        have : nn ≤ r + ((j : ℤ) + 1) := by linarith
        have := mul_le_mul_of_nonneg_right this (le_of_lt hn0)
        nlinarith
      refine ⟨by positivity, by linarith, by positivity, by linarith⟩
    · rintro ⟨-, h2, -, h4⟩
      constructor
      · have h5 : (r + ((j : ℤ) + 1)) * nn ≤ (nn - 1) * nn :=
          mul_le_mul_of_nonneg_right (by linarith) (le_of_lt hn0)
        nlinarith
      · have h6 : (c + ((j : ℤ) + 1)) * (nn + 1) ≤ (nn - 1) * (nn + 1) :=
          mul_le_mul_of_nonneg_right (by linarith) (by linarith)
        nlinarith
  case se =>
    rw [show set_increment nn Direction.se = -(nn - 1) from rfl, if_pos (by linarith)]
    have hmx : set_max_min nn (r * nn + c) Direction.se =
        (if r * nn + (nn - 1) - (nn - 1 - c) * nn < 0
         then 0 else r * nn + (nn - 1) - (nn - 1 - c) * nn) := by
      simp only [set_max_min, hdiv, hmod]
    rw [hmx, pyRangeLen_lt_iff_neg _ _ _ (by linarith)]
    simp only [onBoard, Direction.dr, Direction.dc, mul_neg, mul_one]
    have key : ∀ P : Prop, (P ↔ (0 ≤ r * nn + c - ((j : ℤ) + 1) * (nn - 1) ∧
        r * nn + (nn - 1) - (nn - 1 - c) * nn ≤ r * nn + c - ((j : ℤ) + 1) * (nn - 1))) →
        (((if r * nn + (nn - 1) - (nn - 1 - c) * nn < 0
           then 0 else r * nn + (nn - 1) - (nn - 1 - c) * nn) - 1 <
          r * nn + c + -(nn - 1) + -((j : ℤ) * (nn - 1))) ↔ P) := by
      intro P hP
      rw [hP]
      split_ifs with hb
      · constructor
        · intro h; exact ⟨by linarith, by linarith⟩
        · rintro ⟨h1, -⟩; linarith
      · constructor
        · intro h; exact ⟨by linarith, by linarith⟩
        · rintro ⟨-, h2⟩; linarith
    rw [key _ (Iff.rfl)]
    constructor
    · rintro ⟨h1, h2⟩
      have hck : c + ((j : ℤ) + 1) ≤ nn - 1 := by
        by_contra hcon
        push_neg at hcon
        have : nn ≤ c + ((j : ℤ) + 1) := by linarith
        have := mul_le_mul_of_nonneg_right this (show (0:ℤ) ≤ nn - 1 by linarith)
        nlinarith
      have hrk : ((j : ℤ) + 1) ≤ r := by
        by_contra hcon
        push_neg at hcon
        have : r - ((j : ℤ) + 1) ≤ -1 := by linarith
        have := mul_le_mul_of_nonneg_right this (le_of_lt hn0)
        nlinarith
      refine ⟨by linarith, by linarith, by positivity, by linarith⟩
    · rintro ⟨h1, -, -, h4⟩
      constructor
      · have h5 : (0 : ℤ) ≤ (r - ((j : ℤ) + 1)) * nn :=
          mul_nonneg (by linarith) (le_of_lt hn0)
        nlinarith
      · have h6 : (c + ((j : ℤ) + 1)) * (nn - 1) ≤ (nn - 1) * (nn - 1) :=
          mul_le_mul_of_nonneg_right (by linarith) (by linarith)
        nlinarith
  case nw =>
    rw [show set_increment nn Direction.nw = nn - 1 from rfl, if_neg (by linarith)]
    have hmx : set_max_min nn (r * nn + c) Direction.nw =
        (if nn ^ 2 - 1 < r * nn + (r * nn + c - r * nn) * nn
         then nn ^ 2 - 1 else r * nn + (r * nn + c - r * nn) * nn) := by
      simp only [set_max_min, hdiv]
    rw [hmx, pyRangeLen_lt_iff_pos _ _ _ (by linarith)]
    simp only [onBoard, Direction.dr, Direction.dc, mul_one, mul_neg]
    have hsimp : r * nn + (r * nn + c - r * nn) * nn = r * nn + c * nn := by ring_nf
    rw [hsimp]
    have key : ∀ P : Prop, (P ↔ (r * nn + c + ((j : ℤ) + 1) * (nn - 1) ≤ nn ^ 2 - 1 ∧
        r * nn + c + ((j : ℤ) + 1) * (nn - 1) ≤ r * nn + c * nn)) →
        ((r * nn + c + (nn - 1) + (j : ℤ) * (nn - 1) <
          (if nn ^ 2 - 1 < r * nn + c * nn then nn ^ 2 - 1 else r * nn + c * nn) + 1) ↔ P) := by
      intro P hP
      rw [hP]
      split_ifs with hb
      · constructor
        · intro h; exact ⟨by linarith, by linarith⟩
        · rintro ⟨h1, -⟩; linarith
      · constructor
        · intro h; exact ⟨by linarith, by linarith⟩
        · rintro ⟨-, h2⟩; linarith
    rw [key _ (Iff.rfl)]
    constructor
    · rintro ⟨h1, h2⟩
      have hck : ((j : ℤ) + 1) ≤ c := by
        by_contra hcon
        push_neg at hcon
        have : c + 1 ≤ ((j : ℤ) + 1) := by linarith
        have := mul_le_mul_of_nonneg_right this (show (0:ℤ) ≤ nn - 1 by linarith)
        nlinarith
      have hrk : r + ((j : ℤ) + 1) ≤ nn - 1 := by
        by_contra hcon
        push_neg at hcon
        have : nn ≤ r + ((j : ℤ) + 1) := by linarith
        have := mul_le_mul_of_nonneg_right this (le_of_lt hn0)
        nlinarith
      refine ⟨by positivity, by linarith, by linarith, by linarith⟩
    · rintro ⟨-, h2, h3, -⟩
      constructor
      · have h5 : (r + ((j : ℤ) + 1)) * nn ≤ (nn - 1) * nn :=
          mul_le_mul_of_nonneg_right (by linarith) (le_of_lt hn0)
        nlinarith
      · have h6 : ((j : ℤ) + 1) * (nn - 1) ≤ c * (nn - 1) :=
          mul_le_mul_of_nonneg_right (by linarith) (by linarith)
        nlinarith
  case sw =>
    rw [show set_increment nn Direction.sw = -(nn + 1) from rfl, if_pos (by linarith)]
    have hmx : set_max_min nn (r * nn + c) Direction.sw =
        (if r * nn - (r * nn + c - r * nn) * nn < 0
         then 0 else r * nn - (r * nn + c - r * nn) * nn) := by
      simp only [set_max_min, hdiv]
    rw [hmx, pyRangeLen_lt_iff_neg _ _ _ (by linarith)]
    simp only [onBoard, Direction.dr, Direction.dc, mul_neg, mul_one]
    have hsimp : r * nn - (r * nn + c - r * nn) * nn = r * nn - c * nn := by ring_nf
    rw [hsimp]
    have key : ∀ P : Prop, (P ↔ (0 ≤ r * nn + c - ((j : ℤ) + 1) * (nn + 1) ∧
        r * nn - c * nn ≤ r * nn + c - ((j : ℤ) + 1) * (nn + 1))) →
        (((if r * nn - c * nn < 0 then 0 else r * nn - c * nn) - 1 <
          r * nn + c + -(nn + 1) + -((j : ℤ) * (nn + 1))) ↔ P) := by
      intro P hP
      rw [hP]
      split_ifs with hb
      · constructor
        · intro h; exact ⟨by linarith, by linarith⟩
        · rintro ⟨h1, -⟩; linarith
      · constructor
        · intro h; exact ⟨by linarith, by linarith⟩
        · rintro ⟨-, h2⟩; linarith
    rw [key _ (Iff.rfl)]
    constructor
    · rintro ⟨h1, h2⟩
      have hck : ((j : ℤ) + 1) ≤ c := by
        by_contra hcon
        push_neg at hcon
        have : c + 1 ≤ ((j : ℤ) + 1) := by linarith
        have := mul_le_mul_of_nonneg_right this (show (0:ℤ) ≤ nn + 1 by linarith)
        nlinarith
      have hrk : ((j : ℤ) + 1) ≤ r := by
        by_contra hcon
        push_neg at hcon
        have : r - ((j : ℤ) + 1) ≤ -1 := by linarith
        have := mul_le_mul_of_nonneg_right this (le_of_lt hn0)
        nlinarith
      refine ⟨by linarith, by linarith, by linarith, by linarith⟩
    · rintro ⟨h1, -, h3, -⟩
      constructor
      · have h5 : (0 : ℤ) ≤ (r - ((j : ℤ) + 1)) * nn :=
          mul_nonneg (by linarith) (le_of_lt hn0)
        nlinarith
      · have h6 : ((j : ℤ) + 1) * (nn + 1) ≤ c * (nn + 1) :=
          mul_le_mul_of_nonneg_right (by linarith) (by linarith)
        nlinarith

/-! ### Characterization of `can_capture_in_direction` -/

lemma Color.change_color_ne (t : Color) : t.change_color ≠ t := by
  cases t <;> simp [Color.change_color]

lemma Color.eq_of_ne_change_color {a b : Color} (h : a ≠ b.change_color) : a = b := by
  cases a <;> cases b <;> simp_all [Color.change_color]

/-- The claim-side notion of the captured run: the cells reached by
`1, …, m` steps from `location` in direction `d` (as board indices,
using the direction's index increment). -/
def runCells (nn location : ℤ) (d : Direction) (m : ℕ) : List ℤ :=
  (List.range m).map (fun (j : ℕ) => location + ((j : ℤ) + 1) * set_increment nn d)

/-- The claim-side capture condition: a non-empty run (`1 ≤ m`) of
on-board opponent tiles at steps `1 … m`, terminated by an on-board tile
of the mover's own color at step `m + 1`. -/
def captureCond (nn : ℤ) (pieces : ℤ → Option Color) (turn : Color)
    (r c : ℤ) (d : Direction) (m : ℕ) : Prop :=
  1 ≤ m ∧
  (∀ j : ℕ, j < m → onBoard nn r c d ((j : ℤ) + 1) ∧
      pieces (r * nn + c + ((j : ℤ) + 1) * set_increment nn d) = some turn.change_color) ∧
  onBoard nn r c d ((m : ℤ) + 1) ∧
  pieces (r * nn + c + ((m : ℤ) + 1) * set_increment nn d) = some turn

instance (nn : ℤ) (pieces : ℤ → Option Color) (turn : Color)
    (r c : ℤ) (d : Direction) (m : ℕ) :
    Decidable (captureCond nn pieces turn r c d m) := by
  unfold captureCond; infer_instance

lemma scanRange_all_opp (pieces : ℤ → Option Color) (turn : Color) :
    ∀ (L acc : List ℤ), (∀ x ∈ L, pieces x = some turn.change_color) →
      scanRange pieces turn L acc = acc ++ L := by
  intro L
  induction L with
  | nil => intro acc _; simp [scanRange]
  | cons y rest ih =>
    intro acc h
    have hy : pieces y = some turn.change_color := h y (by simp)
    simp only [scanRange, hy]
    rw [if_pos (by simp [Color.change_color_ne])]
    rw [ih (acc ++ [y]) (fun x hx => h x (by simp [hx]))]
    simp

lemma scanRange_stop_own (pieces : ℤ → Option Color) (turn : Color) :
    ∀ (L1 : List ℤ) (x : ℤ) (L2 acc : List ℤ),
      (∀ y ∈ L1, pieces y = some turn.change_color) → pieces x = some turn →
      scanRange pieces turn (L1 ++ x :: L2) acc = acc ++ L1 ++ [x] := by
  intro L1
  induction L1 with
  | nil =>
    intro x L2 acc _ hx
    simp only [List.nil_append, scanRange, hx]
    rw [if_neg (by simp)]
    simp
  | cons y rest ih =>
    intro x L2 acc h hx
    have hy : pieces y = some turn.change_color := h y (by simp)
    rw [List.cons_append]
    simp only [scanRange, hy]
    rw [if_pos (by simp [Color.change_color_ne])]
    have hrec := ih x L2 (acc ++ [y]) (fun z hz => h z (by simp [hz])) hx
    rw [hrec]
    simp

lemma scanRange_stop_empty (pieces : ℤ → Option Color) (turn : Color) :
    ∀ (L1 : List ℤ) (x : ℤ) (L2 acc : List ℤ),
      (∀ y ∈ L1, pieces y = some turn.change_color) → pieces x = none →
      scanRange pieces turn (L1 ++ x :: L2) acc = [] := by
  intro L1
  induction L1 with
  | nil =>
    intro x L2 acc _ hx
    simp only [List.nil_append, scanRange, hx]
  | cons y rest ih =>
    intro x L2 acc h hx
    have hy : pieces y = some turn.change_color := h y (by simp)
    rw [List.cons_append]
    simp only [scanRange, hy]
    rw [if_pos (by simp [Color.change_color_ne])]
    exact ih x L2 (acc ++ [y]) (fun z hz => h z (by simp [hz])) hx

/-- Every element of the scan loop's output is either from the initial
accumulator or an occupied cell of the scanned list. -/
lemma scanRange_mem (pieces : ℤ → Option Color) (turn : Color) :
    ∀ (L acc : List ℤ) (x : ℤ), x ∈ scanRange pieces turn L acc →
      x ∈ acc ∨ (x ∈ L ∧ pieces x ≠ none) := by
  intro L
  induction L with
  | nil => intro acc x hx; simp [scanRange] at hx; exact Or.inl hx
  | cons y rest ih =>
    intro acc x hx
    cases hy : pieces y with
    | none => simp only [scanRange, hy] at hx; simp at hx
    | some c =>
      simp only [scanRange, hy] at hx
      by_cases hcy : c ≠ turn
      · rw [if_pos hcy] at hx
        rcases ih (acc ++ [y]) x hx with h | h
        · simp at h
          rcases h with h | h
          · exact Or.inl h
          · exact Or.inr ⟨by simp [h], by simp [h, hy]⟩
        · exact Or.inr ⟨by simp [h.1], h.2⟩
      · rw [if_neg hcy] at hx
        simp at hx
        rcases hx with h | h
        · exact Or.inl h
        · exact Or.inr ⟨by simp [h], by simp [h, hy]⟩

/-- Decomposition of the scanned `range` list at position `m`. -/
lemma pyRange_decomp (start step : ℤ) (stop : ℤ) (m : ℕ)
    (hm : m < pyRangeLen start stop step) :
    ∃ tail : List ℤ,
      pyRange start stop step =
        (List.range m).map (fun (j : ℕ) => start + (j : ℤ) * step) ++
          (start + (m : ℤ) * step) :: tail := by
  refine ⟨((List.range (pyRangeLen start stop step - (m + 1))).map
      (fun i => (m + 1) + i)).map (fun (j : ℕ) => start + (j : ℤ) * step), ?_⟩
  unfold pyRange
  have hsplit : pyRangeLen start stop step = (m + 1) + (pyRangeLen start stop step - (m + 1)) := by
    omega
  rw [hsplit, List.range_add, List.range_succ]
  simp [List.map_append]

set_option maxHeartbeats 800000 in
/-- Characterization of `can_capture_in_direction` at a location
`r * nn + c` (row `r`, column `c`): if some `m` satisfies the capture
condition (a non-empty run of on-board opponent tiles at steps `1 … m`
closed off by an own-color tile at step `m + 1`), the result is exactly
the run `runCells … m` (the terminator is not included); if no `m` does
— in particular when the adjacent cell is empty or off-board, or the
scan reaches the board edge or an empty cell before an own-color tile —
the result is `[]`. -/
lemma capture_spec (nn r c : ℤ) (hn : 2 ≤ nn) (hr : 0 ≤ r) (hr' : r < nn)
    (hc : 0 ≤ c) (hc' : c < nn) (pieces : ℤ → Option Color) (turn : Color)
    (d : Direction) :
    (∀ m : ℕ, captureCond nn pieces turn r c d m →
      can_capture_in_direction nn pieces turn (r * nn + c) d = runCells nn (r * nn + c) d m) ∧
    ((∀ m : ℕ, ¬ captureCond nn pieces turn r c d m) →
      can_capture_in_direction nn pieces turn (r * nn + c) d = []) := by
  set inc := set_increment nn d with hinc
  set start := r * nn + c + inc with hstart
  set stop := (if inc ≤ 0 then set_max_min nn (r * nn + c) d - 1
    else set_max_min nn (r * nn + c) d + 1) with hstop
  set f : ℕ → ℤ := fun (j : ℕ) => start + (j : ℤ) * inc with hf
  have hcell : ∀ j : ℕ, f j = r * nn + c + ((j : ℤ) + 1) * inc := by
    intro j; simp only [hf, hstart]; ring
  have hlen : ∀ j : ℕ, (j < pyRangeLen start stop inc) ↔ onBoard nn r c d ((j : ℤ) + 1) :=
    fun j => len_iff nn r c hn hr hr' hc hc' d j
  have hccd : can_capture_in_direction nn pieces turn (r * nn + c) d =
      (match (scanRange pieces turn (pyRange start stop inc) []).getLast? with
       | none => []
       | some lastLoc =>
          if pieces lastLoc = some turn
          then (scanRange pieces turn (pyRange start stop inc) []).dropLast
          else []) := rfl
  constructor
  · rintro m ⟨hm1, hall, hOB, hOwn⟩
    have hmlt : m < pyRangeLen start stop inc := (hlen m).mpr hOB
    obtain ⟨tail, hdec⟩ := pyRange_decomp start inc stop m hmlt
    have hL1opp : ∀ y ∈ (List.range m).map (fun (j : ℕ) => start + (j : ℤ) * inc),
        pieces y = some turn.change_color := by
      intro y hy
      rcases List.mem_map.mp hy with ⟨j, hj, rfl⟩
      have hjm := List.mem_range.mp hj
      have := (hall j hjm).2
      rw [← hcell j] at this
      exact this
    have hx : pieces (start + (m : ℤ) * inc) = some turn := by
      rw [show start + (m : ℤ) * inc = f m from rfl, hcell m]
      exact hOwn
    have hscan : scanRange pieces turn (pyRange start stop inc) [] =
        [] ++ (List.range m).map (fun (j : ℕ) => start + (j : ℤ) * inc) ++ [start + (m : ℤ) * inc] := by
      rw [hdec]
      exact scanRange_stop_own pieces turn _ _ tail [] hL1opp hx
    rw [hccd, hscan]
    simp only [List.nil_append, List.getLast?_concat]
    rw [if_pos hx, List.dropLast_concat]
    unfold runCells
    refine List.map_congr_left ?_
    intro j hj
    rw [← hinc, ← hcell j]
  · intro hno
    by_cases hallopp : ∀ j : ℕ, j < pyRangeLen start stop inc →
        pieces (f j) = some turn.change_color
    · have hLopp : ∀ y ∈ pyRange start stop inc, pieces y = some turn.change_color := by
        intro y hy
        rcases List.mem_map.mp hy with ⟨j, hj, rfl⟩
        exact hallopp j (List.mem_range.mp hj)
      have hscan : scanRange pieces turn (pyRange start stop inc) [] =
          [] ++ pyRange start stop inc :=
        scanRange_all_opp pieces turn _ [] hLopp
      rw [hccd, hscan, List.nil_append]
      rcases hlen0 : pyRangeLen start stop inc with _ | t
      · have : pyRange start stop inc = [] := by
          unfold pyRange; rw [hlen0]; rfl
        rw [this]; rfl
      · have hdecL : pyRange start stop inc =
            (List.range t).map (fun (j : ℕ) => start + (j : ℤ) * inc) ++ [start + (t : ℤ) * inc] := by
          unfold pyRange
          rw [hlen0, List.range_succ]
          simp
        rw [hdecL]
        simp only [List.getLast?_concat]
        rw [if_neg ?_]
        intro hcon
        have hopp := hallopp t (by omega)
        rw [show start + (t : ℤ) * inc = f t from rfl] at hcon
        rw [hopp] at hcon
        exact Color.change_color_ne turn (Option.some.inj hcon)
    · push_neg at hallopp
      have hex : ∃ j : ℕ, j < pyRangeLen start stop inc ∧
          pieces (f j) ≠ some turn.change_color := hallopp
      set j0 := Nat.find hex with hj0def
      obtain ⟨hj0lt, hj0ne⟩ := Nat.find_spec hex
      have hmin : ∀ i : ℕ, i < j0 → pieces (f i) = some turn.change_color := by
        intro i hi
        have := Nat.find_min hex hi
        push_neg at this
        exact this (by omega)
      obtain ⟨tail, hdec⟩ := pyRange_decomp start inc stop j0 hj0lt
      have hL1opp : ∀ y ∈ (List.range j0).map (fun (j : ℕ) => start + (j : ℤ) * inc),
          pieces y = some turn.change_color := by
        intro y hy
        rcases List.mem_map.mp hy with ⟨j, hj, rfl⟩
        exact hmin j (List.mem_range.mp hj)
      cases hpiece : pieces (f j0) with
      | none =>
        have hscan : scanRange pieces turn (pyRange start stop inc) [] = [] := by
          rw [hdec]
          exact scanRange_stop_empty pieces turn _ _ tail [] hL1opp hpiece
        rw [hccd, hscan]; rfl
      | some col =>
        have hcol : col = turn := by
          refine Color.eq_of_ne_change_color ?_
          intro hcon
          exact hj0ne (by rw [hpiece, hcon])
        have hpiece' : pieces (f j0) = some turn := by rw [hpiece, hcol]
        have hscan : scanRange pieces turn (pyRange start stop inc) [] =
            [] ++ (List.range j0).map (fun (j : ℕ) => start + (j : ℤ) * inc) ++ [start + (j0 : ℤ) * inc] := by
          rw [hdec]
          exact scanRange_stop_own pieces turn _ _ tail [] hL1opp hpiece'
        rcases Nat.eq_zero_or_pos j0 with hj00 | hj0pos
        · rw [hccd, hscan]
          simp only [List.nil_append, List.getLast?_concat]
          rw [if_pos (by rw [show start + (j0 : ℤ) * inc = f j0 from rfl, hpiece'])]
          rw [hj00]
          simp
        · exfalso
          refine hno j0 ⟨hj0pos, ?_, (hlen j0).mp hj0lt, ?_⟩
          · intro j hj
            refine ⟨(hlen j).mp (by omega), ?_⟩
            have := hmin j hj
            rw [hcell j] at this
            exact this
          · rw [← hcell j0]
            exact hpiece'

/-! ### Game state and move application -/

/-- The mutable state of a `GameBoard` object: board side `n`, the
`pieces` list (modelled as a total function on indices), the two tile
counters, the current `turn`, and the `valid_moves` dictionary
(association list in insertion = square-index order). -/
structure GameState where
  n : ℤ
  pieces : ℤ → Option Color
  black : ℤ
  white : ℤ
  turn : Color
  valid_moves : List (ℤ × List ℤ)

/-- `GameBoard.place`: draw a tile of the current turn's color at
`location` and bump that color's counter.  (Both call sites satisfy the
method's index-range assertion.) -/
def place (s : GameState) (location : ℤ) : GameState :=
  { s with
    pieces := fun i => if i = location then some s.turn else s.pieces i
    white := if s.turn = Color.white then s.white + 1 else s.white
    black := if s.turn = Color.black then s.black + 1 else s.black }

/-- `GameBoard.switch_turns`. -/
def switch_turns (s : GameState) : GameState :=
  { s with turn := s.turn.change_color }

/-- The `self.valid_moves = self.find_valid_moves()` statement. -/
def update_valid_moves (s : GameState) : GameState :=
  { s with valid_moves := find_valid_moves s.n s.pieces s.turn }

/-- `GameBoard.flip_tile`: on an occupied square, flip the piece and
adjust both counters according to the piece's *new* color.  On an empty
square the source skips the flip and then crashes reading
`piece.color` of `None` (`AttributeError`), modelled as `.error` with
the state unchanged. -/
def flip_tile (s : GameState) (location : ℤ) : Except GameState GameState :=
  match s.pieces location with
  | none => Except.error s
  | some col =>
    let newCol := col.change_color
    Except.ok
      { s with
        pieces := fun i => if i = location then some newCol else s.pieces i
        white := if newCol = Color.white then s.white + 1
          else if newCol = Color.black then s.white - 1 else s.white
        black := if newCol = Color.white then s.black - 1
          else if newCol = Color.black then s.black + 1 else s.black }

/-- `GameBoard.flip_tiles`: flip each listed tile in order. -/
def flip_tiles (s : GameState) (tile_list : List ℤ) : Except GameState GameState :=
  tile_list.foldlM flip_tile s

/-- `GameBoard.make_move`: place a tile at `location`, flip the tiles
recorded for `location` in `valid_moves`, switch turns and recompute
`valid_moves`.  A `location` outside `[0, n^2)` fails the `assert`
(state unchanged); a `location` that is not a key of `valid_moves`
raises `KeyError` *after* the tile was placed, so the error state
carries the mutation. -/
def make_move (s : GameState) (location : ℤ) : Except GameState GameState :=
  if 0 ≤ location ∧ location < s.n ^ 2 then
    let s1 := place s location
    match s1.valid_moves.lookup location with
    | none => Except.error s1
    | some to_flip =>
      match flip_tiles s1 to_flip with
      | Except.error t => Except.error t
      | Except.ok s2 => Except.ok (update_valid_moves (switch_turns s2))
  else Except.error s

/-- `GameBoard.is_full`: no index holds `None`. -/
def is_full (s : GameState) : Bool :=
  (List.range (s.n ^ 2).toNat).all (fun (i : ℕ) => s.pieces (i : ℤ) ≠ none)

/-- `GameBoard.find_center_squares`: `(ul, ur, lr, ll)` around the
middle of the board, `ur = (n^2 + n) / 2`. -/
def find_center_squares (nn : ℤ) : List ℤ :=
  let ur := (nn ^ 2 + nn) / 2
  let ul := ur - 1
  let lr := ur - nn
  let ll := lr - 1
  [ul, ur, lr, ll]

/-- `GameBoard.draw_start_tiles`: place a tile on each center square,
switching turns after each. -/
def draw_start_tiles (s : GameState) : GameState :=
  (find_center_squares s.n).foldl (fun t loc => switch_turns (place t loc)) s

/-- The state built by `GameBoard.__init__(n)`: empty board, black to
move, start tiles drawn, then the first `valid_moves` computed. -/
def initState (nn : ℤ) : GameState :=
  update_valid_moves (draw_start_tiles
    { n := nn
      pieces := fun _ => none
      black := 0
      white := 0
      turn := Color.black
      valid_moves := [] })

/-- Number of empty cells (used only as a termination fuel measure for
`computer_move`; not part of the source state). -/
def emptyCount (s : GameState) : ℕ :=
  ((Finset.range (s.n ^ 2).toNat).filter (fun (i : ℕ) => s.pieces (i : ℤ) = none)).card

/-- `GameBoard.computer_move`, with explicit recursion fuel (the source
recurses on `self`; any fuel exceeding the number of empty cells is
enough).  Returns the state, the `True`/`False` result of the call, and
whether `end_game` was invoked inside. -/
def computer_move : ℕ → GameState → Except GameState (GameState × Bool × Bool)
  | 0, s => Except.error s
  | fuel + 1, s =>
    let choice := choose_move s.valid_moves
    if choice ≠ -1 then
      match make_move s choice with
      | Except.error t => Except.error t
      | Except.ok s1 =>
        if is_full s1 then Except.ok (s1, true, true)
        else if s1.valid_moves.length = 0 then
          computer_move fuel (update_valid_moves (switch_turns s1))
        else Except.ok (s1, true, false)
    else Except.ok (update_valid_moves (switch_turns s), false, false)

/-- `Square.__init__` geometry: the lower-left corner of square
`location` on an `n × n` board (`SQUARE = 50`, first corner at
`-n * 50 // 2`). -/
def squareX (nn location : ℤ) : ℤ := -nn * 50 / 2 + location % nn * 50

/-- Lower-left y-coordinate of square `location`. -/
def squareY (nn location : ℤ) : ℤ := -nn * 50 / 2 + location / nn * 50

/-- `Square.was_clicked`: strict `self.x < x < self.x + self.size`
comparisons in both coordinates (`size = 50`). -/
def was_clicked (sx sy size x y : ℤ) : Bool :=
  decide (sx < x ∧ x < sx + size ∧ sy < y ∧ y < sy + size)

/-- The move-execution loop of `GameBoard.play`: the first square (in
index order) containing the click whose location is a key of
`valid_moves`, if any. -/
def firstClickedValid (s : GameState) (x y : ℤ) : Option ℤ :=
  ((List.range (s.n ^ 2).toNat).map (fun (i : ℕ) => (i : ℤ))).find?
    (fun loc => was_clicked (squareX s.n loc) (squareY s.n loc) 50 x y
      && (s.valid_moves.lookup loc).isSome)

/-- `GameBoard.play` (state-relevant behavior): execute the clicked
move if it is valid, end the game if the board is full, then drive the
computer's move(s); returns the final state and whether `end_game` was
invoked.  Rendering and the click-listener toggling are I/O only. -/
def play (fuel : ℕ) (s : GameState) (x y : ℤ) :
    Except GameState (GameState × Bool) :=
  let afterClick : Except GameState GameState :=
    match firstClickedValid s x y with
    | some loc => make_move s loc
    | none => Except.ok s
  match afterClick with
  | Except.error t => Except.error t
  | Except.ok t =>
    let (t1, ended1) :=
      if is_full t then ({ t with turn := Color.black }, true) else (t, false)
    if t1.turn = Color.white then
      match computer_move fuel t1 with
      | Except.error u => Except.error u
      | Except.ok (f, moved, ended2) =>
        Except.ok (f, ended1 || ended2 || (!moved && decide (f.valid_moves.length = 0)))
    else Except.ok (t1, ended1)

/-! ### Score file (`GameBoard.save_score`)

The file is modelled as a `List Char`; `none` models an absent file on
the read side and a raised exception on the result side.  `r+` mode
semantics: `readline` consumes the first line (including its newline),
and a subsequent `write` overwrites in place at the current position. -/

/-- Whitespace test used by Python `str.split()`. -/
def isSpaceChar (ch : Char) : Bool :=
  ch = ' ' || ch = '\n' || ch = '\t'

/-- Helper for `pySplit`: `cur` is the (reversed) current field. -/
def pySplitAux : List Char → List Char → List (List Char)
  | [], cur => if cur = [] then [] else [cur.reverse]
  | ch :: rest, cur =>
    if isSpaceChar ch then
      (if cur = [] then pySplitAux rest [] else cur.reverse :: pySplitAux rest [])
    else pySplitAux rest (ch :: cur)

/-- Python `str.split()` (split on whitespace runs, drop empty fields;
`strip()` before it is then redundant). -/
def pySplit (s : List Char) : List (List Char) := pySplitAux s []

/-- Accumulating decimal parser for `pyInt`. -/
def parseNat : List Char → ℕ → Option ℕ
  | [], acc => some acc
  | c :: rest, acc =>
    if '0' ≤ c ∧ c ≤ '9' then parseNat rest (acc * 10 + (c.toNat - 48))
    else none

/-- Python `int(str)` on an (optionally `-`-signed) decimal token;
`none` models the `ValueError`. -/
def pyInt : List Char → Option ℤ
  | [] => none
  | '-' :: rest =>
    (if rest = [] then none else (parseNat rest 0).map (fun n => -(n : ℤ)))
  | s => (parseNat s 0).map (fun n => (n : ℤ))

/-- Decimal digits of `n`, most significant first (`fuel ≥ n + 1`
always suffices). -/
def natToCharsAux : ℕ → ℕ → List Char
  | 0, _ => []
  | fuel + 1, n =>
    if n < 10 then [Nat.digitChar n]
    else natToCharsAux fuel (n / 10) ++ [Nat.digitChar (n % 10)]

/-- Python `str(int)`. -/
def intStr (z : ℤ) : List Char :=
  if z < 0 then '-' :: natToCharsAux (z.natAbs + 1) z.natAbs
  else natToCharsAux (z.natAbs + 1) z.natAbs

/-- `GameBoard.save_score`: `file` is the prior content (`none` if the
file does not exist); returns the new content, or `none` if the call
raises (`IndexError`/`ValueError` on an unparsable first line). -/
def save_score (file : Option (List Char)) (name : List Char) (black : ℤ) :
    Option (List Char) :=
  let newline := name ++ ' ' :: intStr black ++ ['\n']
  match file with
  | none => some newline
  | some content =>
    let firstLine := content.takeWhile (fun ch => ch ≠ '\n')
    let pos := if firstLine.length < content.length
      then firstLine.length + 1 else content.length
    match (pySplit firstLine).get? 1 with
    | none => none
    | some tok =>
      match pyInt tok with
      | none => none
      | some high_score =>
        if black > high_score then some (newline ++ content)
        else some (content.take pos ++ newline ++ content.drop (pos + newline.length))

/-! ### Tile counting and the board invariant -/

/-- Number of tiles of color `col` on the board (as an integer). -/
def countColor (s : GameState) (col : Color) : ℤ :=
  ∑ i ∈ Finset.range (s.n ^ 2).toNat, (if s.pieces (i : ℤ) = some col then 1 else 0)

/-- Number of occupied cells of the board (as an integer). -/
def occupiedCells (s : GameState) : ℤ :=
  ∑ i ∈ Finset.range (s.n ^ 2).toNat, (if s.pieces (i : ℤ) ≠ none then 1 else 0)

/-- The counters of the state agree with the actual tile counts. -/
def CountInv (s : GameState) : Prop :=
  s.black = countColor s Color.black ∧ s.white = countColor s Color.white

/-- Full reachable-state invariant: fixed board side, count
correctness, and `valid_moves` agreeing with `find_valid_moves` on the
current board and turn. -/
def InvFull (nn : ℤ) (s : GameState) : Prop :=
  s.n = nn ∧ 4 ≤ nn ∧ nn % 2 = 0 ∧ CountInv s ∧
    s.valid_moves = find_valid_moves nn s.pieces s.turn

lemma countColor_black_add_white (s : GameState) :
    countColor s Color.black + countColor s Color.white = occupiedCells s := by
  unfold countColor occupiedCells
  rw [← Finset.sum_add_distrib]
  refine Finset.sum_congr rfl ?_
  intro i _
  cases h : s.pieces (i : ℤ) with
  | none => simp [h]
  | some c => cases c <;> simp [h]

lemma countColor_nonneg (s : GameState) (col : Color) : 0 ≤ countColor s col := by
  unfold countColor
  refine Finset.sum_nonneg ?_
  intro i _
  split <;> norm_num

lemma sum_update (N : ℕ) (F G : ℕ → ℤ) (a : ℕ) (ha : a < N)
    (hsame : ∀ i, i ≠ a → G i = F i) :
    ∑ i ∈ Finset.range N, G i = (∑ i ∈ Finset.range N, F i) - F a + G a := by
  have haM : a ∈ Finset.range N := Finset.mem_range.mpr ha
  have h1 := Finset.sum_erase_add (Finset.range N) G haM
  have h2 := Finset.sum_erase_add (Finset.range N) F haM
  have h3 : ∑ i ∈ (Finset.range N).erase a, G i = ∑ i ∈ (Finset.range N).erase a, F i := by
    refine Finset.sum_congr rfl ?_
    intro i hi
    exact hsame i (Finset.ne_of_mem_erase hi)
  linarith

lemma toNat_cast_eq {loc : ℤ} (h0 : 0 ≤ loc) : ((loc.toNat : ℤ)) = loc :=
  Int.toNat_of_nonneg h0

lemma countColor_place (s : GameState) (loc : ℤ) (col : Color)
    (h0 : 0 ≤ loc) (h1 : loc < s.n ^ 2) (hemp : s.pieces loc = none) :
    countColor (place s loc) col =
      countColor s col + (if s.turn = col then 1 else 0) := by
  unfold countColor place
  simp only []
  have ha : loc.toNat < (s.n ^ 2).toNat := by omega
  rw [sum_update _ (fun i => if s.pieces (i : ℤ) = some col then 1 else 0)
    (fun i => if (if (i : ℤ) = loc then some s.turn else s.pieces (i : ℤ)) = some col
      then 1 else 0) loc.toNat ha ?_]
  · rw [toNat_cast_eq h0]
    have hFa : (if s.pieces loc = some col then (1 : ℤ) else 0) = 0 := by simp [hemp]
    have hGa : (if (if loc = loc then some s.turn else s.pieces loc) = some col
        then (1 : ℤ) else 0) = (if s.turn = col then 1 else 0) := by
      by_cases ht : s.turn = col
      · simp [ht]
      · simp [ht]
    rw [hFa, hGa]
    ring
  · intro i hi
    have hne : (i : ℤ) ≠ loc := by
      intro hcon
      exact hi (by omega)
    simp only [if_neg hne]

lemma place_CountInv (s : GameState) (loc : ℤ)
    (h : CountInv s) (h0 : 0 ≤ loc) (h1 : loc < s.n ^ 2)
    (hemp : s.pieces loc = none) : CountInv (place s loc) := by
  obtain ⟨hb, hw⟩ := h
  constructor
  · rw [countColor_place s loc Color.black h0 h1 hemp]
    show (if s.turn = Color.black then s.black + 1 else s.black) = _
    by_cases ht : s.turn = Color.black
    · rw [if_pos ht, if_pos ht, hb]
    · rw [if_neg ht, if_neg ht, hb]; ring
  · rw [countColor_place s loc Color.white h0 h1 hemp]
    show (if s.turn = Color.white then s.white + 1 else s.white) = _
    by_cases ht : s.turn = Color.white
    · rw [if_pos ht, if_pos ht, hw]
    · rw [if_neg ht, if_neg ht, hw]; ring

lemma flip_tile_ok_spec (s : GameState) (loc : ℤ) (col : Color)
    (hp : s.pieces loc = some col) (hcnt : CountInv s)
    (h0 : 0 ≤ loc) (h1 : loc < s.n ^ 2) :
    ∃ s2, flip_tile s loc = Except.ok s2 ∧ CountInv s2 ∧ s2.n = s.n ∧
      s2.turn = s.turn ∧ s2.valid_moves = s.valid_moves ∧
      (∀ x, s2.pieces x = none ↔ s.pieces x = none) := by
  obtain ⟨hb, hw⟩ := hcnt
  refine ⟨{ s with
      pieces := fun i => if i = loc then some col.change_color else s.pieces i
      white := if col.change_color = Color.white then s.white + 1
        else if col.change_color = Color.black then s.white - 1 else s.white
      black := if col.change_color = Color.white then s.black - 1
        else if col.change_color = Color.black then s.black + 1 else s.black },
    ?_, ?_, rfl, rfl, rfl, ?_⟩
  · unfold flip_tile
    rw [hp]
  · have hcount : ∀ c : Color,
        (∑ i ∈ Finset.range (s.n ^ 2).toNat,
          (if (if (i : ℤ) = loc then some col.change_color else s.pieces (i : ℤ)) = some c
            then (1 : ℤ) else 0)) =
        countColor s c - (if c = col then 1 else 0) +
          (if c = col.change_color then 1 else 0) := by
      intro c
      unfold countColor
      have ha : loc.toNat < (s.n ^ 2).toNat := by omega
      rw [sum_update _ (fun i => if s.pieces (i : ℤ) = some c then 1 else 0)
        (fun i => if (if (i : ℤ) = loc then some col.change_color else s.pieces (i : ℤ)) = some c
          then 1 else 0) loc.toNat ha ?_]
      · rw [toNat_cast_eq h0]
        have hFa : (if s.pieces loc = some c then (1 : ℤ) else 0) =
            (if c = col then 1 else 0) := by
          by_cases h1c : c = col
          · simp [hp, h1c]
          · simp [hp, h1c, Ne.symm h1c]
        have hGa : (if (if loc = loc then some col.change_color else s.pieces loc) = some c
            then (1 : ℤ) else 0) = (if c = col.change_color then 1 else 0) := by
          by_cases h2c : c = col.change_color
          · simp [h2c]
          · simp [h2c, Ne.symm h2c]
        rw [hFa, hGa]
      · intro i hi
        have hne : (i : ℤ) ≠ loc := fun hcon => hi (by omega)
        simp only [if_neg hne]
    constructor
    · show (if col.change_color = Color.white then s.black - 1
        else if col.change_color = Color.black then s.black + 1 else s.black) = _
      rw [show countColor { s with
          pieces := fun i => if i = loc then some col.change_color else s.pieces i
          white := if col.change_color = Color.white then s.white + 1
            else if col.change_color = Color.black then s.white - 1 else s.white
          black := if col.change_color = Color.white then s.black - 1
            else if col.change_color = Color.black then s.black + 1 else s.black }
          Color.black =
        countColor s Color.black - (if Color.black = col then 1 else 0) +
          (if Color.black = col.change_color then 1 else 0) from hcount Color.black]
      cases col
      · simp [Color.change_color, hb]
      · simp [Color.change_color, hb]
    · show (if col.change_color = Color.white then s.white + 1
        else if col.change_color = Color.black then s.white - 1 else s.white) = _
      rw [show countColor { s with
          pieces := fun i => if i = loc then some col.change_color else s.pieces i
          white := if col.change_color = Color.white then s.white + 1
            else if col.change_color = Color.black then s.white - 1 else s.white
          black := if col.change_color = Color.white then s.black - 1
            else if col.change_color = Color.black then s.black + 1 else s.black }
          Color.white =
        countColor s Color.white - (if Color.white = col then 1 else 0) +
          (if Color.white = col.change_color then 1 else 0) from hcount Color.white]
      cases col
      · simp [Color.change_color, hw]
      · simp [Color.change_color, hw]
  · intro x
    simp only []
    by_cases hx : x = loc
    · rw [if_pos hx, hx, hp]
      simp
    · rw [if_neg hx]

lemma flip_tiles_ok_spec (lst : List ℤ) :
    ∀ s : GameState, CountInv s →
      (∀ x ∈ lst, 0 ≤ x ∧ x < s.n ^ 2 ∧ s.pieces x ≠ none) →
      ∃ s2, flip_tiles s lst = Except.ok s2 ∧ CountInv s2 ∧ s2.n = s.n ∧
        s2.turn = s.turn ∧ s2.valid_moves = s.valid_moves ∧
        (∀ x, s2.pieces x = none ↔ s.pieces x = none) := by
  induction lst with
  | nil =>
    intro s hcnt _
    exact ⟨s, rfl, hcnt, rfl, rfl, rfl, fun x => Iff.rfl⟩
  | cons y rest ih =>
    intro s hcnt hocc
    obtain ⟨hy0, hy1, hyocc⟩ := hocc y (by simp)
    obtain ⟨col, hcol⟩ : ∃ col, s.pieces y = some col := by
      cases hpy : s.pieces y with
      | none => exact absurd hpy hyocc
      | some c => exact ⟨c, rfl⟩
    obtain ⟨s1, hok1, hcnt1, hn1, ht1, hv1, hocc1⟩ :=
      flip_tile_ok_spec s y col hcol hcnt hy0 hy1
    have hrest : ∀ x ∈ rest, 0 ≤ x ∧ x < s1.n ^ 2 ∧ s1.pieces x ≠ none := by
      intro x hx
      obtain ⟨hx0, hx1, hxo⟩ := hocc x (by simp [hx])
      refine ⟨hx0, by rw [hn1]; exact hx1, ?_⟩
      intro hcon
      exact hxo ((hocc1 x).mp hcon)
    obtain ⟨s2, hok2, hcnt2, hn2, ht2, hv2, hocc2⟩ := ih s1 hcnt1 hrest
    refine ⟨s2, ?_, hcnt2, by rw [hn2, hn1], by rw [ht2, ht1],
      by rw [hv2, hv1], fun x => (hocc2 x).trans (hocc1 x)⟩
    show (y :: rest).foldlM flip_tile s = Except.ok s2
    rw [List.foldlM_cons, hok1]
    exact hok2

/-! ### Soundness of the capture lists -/

lemma index_decompose (nn ℓ : ℤ) (hn : 0 < nn) (h0 : 0 ≤ ℓ) (h1 : ℓ < nn ^ 2) :
    ℓ = ℓ / nn * nn + ℓ % nn ∧ 0 ≤ ℓ / nn ∧ ℓ / nn < nn ∧
      0 ≤ ℓ % nn ∧ ℓ % nn < nn := by
  refine ⟨?_, Int.ediv_nonneg h0 (le_of_lt hn), ?_,
    Int.emod_nonneg ℓ (ne_of_gt hn), Int.emod_lt_of_pos ℓ hn⟩
  · have := Int.ediv_add_emod ℓ nn
    linarith [this]
  · rw [Int.ediv_lt_iff_lt_mul hn]
    nlinarith

lemma can_capture_sound (nn : ℤ) (pieces : ℤ → Option Color) (turn : Color)
    (ℓ : ℤ) (d : Direction) (hn : 2 ≤ nn) (h0 : 0 ≤ ℓ) (h1 : ℓ < nn ^ 2) :
    ∀ x ∈ can_capture_in_direction nn pieces turn ℓ d,
      0 ≤ x ∧ x < nn ^ 2 ∧ pieces x = some turn.change_color := by
  obtain ⟨hdecomp, hr, hr', hc, hc'⟩ := index_decompose nn ℓ (by linarith) h0 h1
  set r := ℓ / nn
  set c := ℓ % nn
  rw [hdecomp]
  by_cases hex : ∃ m : ℕ, captureCond nn pieces turn r c d m
  · obtain ⟨m, hm⟩ := hex
    rw [(capture_spec nn r c hn hr hr' hc hc' pieces turn d).1 m hm]
    intro x hx
    unfold runCells at hx
    rcases List.mem_map.mp hx with ⟨j, hj, rfl⟩
    have hjm := List.mem_range.mp hj
    obtain ⟨hOB, hopp⟩ := hm.2.1 j hjm
    obtain ⟨g1, g2, g3, g4⟩ := hOB
    refine ⟨?_, ?_, hopp⟩
    · have heq : r * nn + c + ((j : ℤ) + 1) * set_increment nn d =
          (r + ((j : ℤ) + 1) * d.dr) * nn + (c + ((j : ℤ) + 1) * d.dc) := by
        rw [set_increment_eq]; ring
      rw [heq]
      have : 0 ≤ (r + ((j : ℤ) + 1) * d.dr) * nn := mul_nonneg g1 (by linarith)
      linarith
    · have heq : r * nn + c + ((j : ℤ) + 1) * set_increment nn d =
          (r + ((j : ℤ) + 1) * d.dr) * nn + (c + ((j : ℤ) + 1) * d.dc) := by
        rw [set_increment_eq]; ring
      rw [heq]
      have : (r + ((j : ℤ) + 1) * d.dr) * nn ≤ (nn - 1) * nn :=
        mul_le_mul_of_nonneg_right (by linarith) (by linarith)
      nlinarith
  · push_neg at hex
    rw [(capture_spec nn r c hn hr hr' hc hc' pieces turn d).2 hex]
    simp

lemma all_can_capture_sound (nn : ℤ) (pieces : ℤ → Option Color) (turn : Color)
    (ℓ : ℤ) (hn : 2 ≤ nn) (h0 : 0 ≤ ℓ) (h1 : ℓ < nn ^ 2) :
    ∀ x ∈ all_can_capture nn pieces turn ℓ,
      0 ≤ x ∧ x < nn ^ 2 ∧ pieces x = some turn.change_color := by
  intro x hx
  unfold all_can_capture at hx
  cases hp : pieces ℓ with
  | some col => rw [hp] at hx; simp at hx
  | none =>
    rw [hp] at hx
    rcases List.mem_flatten.mp hx with ⟨sub, hsub, hxsub⟩
    rcases List.mem_map.mp hsub with ⟨d, _, rfl⟩
    exact can_capture_sound nn pieces turn ℓ d hn h0 h1 x hxsub

lemma find_valid_moves_mem (nn : ℤ) (pieces : ℤ → Option Color) (turn : Color)
    (k : ℤ) (v : List ℤ) (h : (k, v) ∈ find_valid_moves nn pieces turn) :
    0 ≤ k ∧ k < nn ^ 2 ∧ pieces k = none ∧
      v = all_can_capture nn pieces turn k ∧ v ≠ [] := by
  unfold find_valid_moves at h
  rcases List.mem_filterMap.mp h with ⟨a, ha, hfa⟩
  have ha' := List.mem_range.mp ha
  simp only [] at hfa
  by_cases hcc : all_can_capture nn pieces turn (a : ℤ) = []
  · rw [if_pos hcc] at hfa; exact absurd hfa (by simp)
  · rw [if_neg hcc] at hfa
    have hpair : ((a : ℤ), all_can_capture nn pieces turn (a : ℤ)) = (k, v) :=
      Option.some.inj hfa
    obtain ⟨rfl, rfl⟩ : (a : ℤ) = k ∧ all_can_capture nn pieces turn (a : ℤ) = v :=
      ⟨congrArg Prod.fst hpair, congrArg Prod.snd hpair⟩
    refine ⟨by positivity, by rwa [← Int.lt_toNat], ?_, rfl, hcc⟩
    cases hp : pieces (a : ℤ) with
    | some col =>
      exfalso
      apply hcc
      unfold all_can_capture
      rw [hp]
    | none => rfl

/-- `List.lookup` only returns stored pairs. -/
lemma lookup_mem (l : List (ℤ × List ℤ)) (k : ℤ) (v : List ℤ)
    (h : l.lookup k = some v) : (k, v) ∈ l := by
  induction l with
  | nil => simp [List.lookup] at h
  | cons kv rest ih =>
    obtain ⟨k1, v1⟩ := kv
    cases hbeq : (k == k1) with
    | false =>
      simp only [List.lookup, hbeq] at h
      exact List.mem_cons_of_mem _ (ih h)
    | true =>
      simp only [List.lookup, hbeq] at h
      have hk : k = k1 := beq_iff_eq.mp hbeq
      have hv : v1 = v := Option.some.inj h
      rw [hk, ← hv]
      exact List.mem_cons_self _ _

/-! ### Invariant of the initial state and of move application -/

lemma switch_CountInv {s : GameState} (h : CountInv s) : CountInv (switch_turns s) := h

lemma update_CountInv {s : GameState} (h : CountInv s) : CountInv (update_valid_moves s) := h

lemma initState_inv (nn : ℤ) (h4 : 4 ≤ nn) (he : nn % 2 = 0) :
    InvFull nn (initState nn) := by
  obtain ⟨m, hm⟩ : ∃ m, nn = 2 * m := ⟨nn / 2, by omega⟩
  have hm2 : 2 ≤ m := by omega
  have hur : (nn ^ 2 + nn) / 2 = 2 * m ^ 2 + m := by
    rw [show nn ^ 2 + nn = 2 * (2 * m ^ 2 + m) from by rw [hm]; ring]
    exact Int.mul_ediv_cancel_left _ two_ne_zero
  have hlow : nn + 1 ≤ (nn ^ 2 + nn) / 2 := by
    rw [hur, hm]; nlinarith
  have hhigh : (nn ^ 2 + nn) / 2 ≤ nn ^ 2 - 1 := by
    rw [hur, show nn ^ 2 = 4 * m ^ 2 from by rw [hm]; ring]; nlinarith
  set u := (nn ^ 2 + nn) / 2 with hu
  set s0 : GameState :=
    { n := nn, pieces := fun _ => none, black := 0, white := 0,
      turn := Color.black, valid_moves := [] } with hs0
  have hcnt0 : CountInv s0 := by
    constructor <;> (unfold countColor; simp)
  set s1 := place s0 (u - 1) with hs1
  have hcnt1 : CountInv s1 :=
    place_CountInv s0 (u - 1) hcnt0 (by linarith)
      (by show u - 1 < nn ^ 2; linarith) rfl
  set s2 := place (switch_turns s1) u with hs2
  have hemp1 : (switch_turns s1).pieces u = none := by
    show (if u = u - 1 then some s0.turn else none) = none
    rw [if_neg (by intro hcon; linarith)]
  have hcnt2 : CountInv s2 :=
    place_CountInv (switch_turns s1) u (switch_CountInv hcnt1)
      (by linarith)
      (by show u < nn ^ 2; linarith) hemp1
  set s3 := place (switch_turns s2) (u - nn) with hs3
  have hemp2 : (switch_turns s2).pieces (u - nn) = none := by
    show (if u - nn = u then some (switch_turns s1).turn
      else if u - nn = u - 1 then some s0.turn else none) = none
    rw [if_neg (by intro hcon; linarith), if_neg (by intro hcon; linarith)]
  have hcnt3 : CountInv s3 :=
    place_CountInv (switch_turns s2) (u - nn) (switch_CountInv hcnt2)
      (by linarith)
      (by show u - nn < nn ^ 2; linarith) hemp2
  set s4 := place (switch_turns s3) (u - nn - 1) with hs4
  have hemp3 : (switch_turns s3).pieces (u - nn - 1) = none := by
    show (if u - nn - 1 = u - nn then some (switch_turns s2).turn
      else if u - nn - 1 = u then some (switch_turns s1).turn
      else if u - nn - 1 = u - 1 then some s0.turn else none) = none
    rw [if_neg (by intro hcon; linarith), if_neg (by intro hcon; linarith),
      if_neg (by intro hcon; linarith)]
  have hcnt4 : CountInv s4 :=
    place_CountInv (switch_turns s3) (u - nn - 1) (switch_CountInv hcnt3)
      (by linarith)
      (by show u - nn - 1 < nn ^ 2; linarith) hemp3
  have hds : initState nn = update_valid_moves (switch_turns s4) := rfl
  refine ⟨rfl, h4, he, ?_, rfl⟩
  rw [hds]
  exact update_CountInv (switch_CountInv hcnt4)

lemma emptyCount_place_lt (s : GameState) (loc : ℤ)
    (h0 : 0 ≤ loc) (h1 : loc < s.n ^ 2) (hemp : s.pieces loc = none) :
    emptyCount (place s loc) < emptyCount s := by
  unfold emptyCount place
  simp only []
  have hmem : loc.toNat ∈ (Finset.range (s.n ^ 2).toNat).filter
      (fun (i : ℕ) => s.pieces (i : ℤ) = none) := by
    refine Finset.mem_filter.mpr ⟨Finset.mem_range.mpr (by omega), ?_⟩
    rw [toNat_cast_eq h0]
    exact hemp
  have hset : (Finset.range (s.n ^ 2).toNat).filter
      (fun (i : ℕ) => (if (i : ℤ) = loc then some s.turn else s.pieces (i : ℤ)) = none) =
      ((Finset.range (s.n ^ 2).toNat).filter
        (fun (i : ℕ) => s.pieces (i : ℤ) = none)).erase loc.toNat := by
    ext i
    simp only [Finset.mem_filter, Finset.mem_erase, Finset.mem_range]
    constructor
    · rintro ⟨hiR, hif⟩
      by_cases hieq : (i : ℤ) = loc
      · rw [if_pos hieq] at hif; exact absurd hif (by simp)
      · rw [if_neg hieq] at hif
        exact ⟨fun hcon => hieq (by omega), hiR, hif⟩
    · rintro ⟨hine, hiR, hif⟩
      have hieq : (i : ℤ) ≠ loc := fun hcon => hine (by omega)
      rw [if_neg hieq]
      exact ⟨hiR, hif⟩
  rw [hset, Finset.card_erase_of_mem hmem]
  have hpos : 0 < ((Finset.range (s.n ^ 2).toNat).filter
      (fun (i : ℕ) => s.pieces (i : ℤ) = none)).card :=
    Finset.card_pos.mpr ⟨loc.toNat, hmem⟩
  omega

lemma emptyCount_eq_of_occ (s t : GameState) (hn : t.n = s.n)
    (hocc : ∀ x, t.pieces x = none ↔ s.pieces x = none) :
    emptyCount t = emptyCount s := by
  unfold emptyCount
  rw [hn]
  congr 1
  refine Finset.filter_congr ?_
  intro i _
  simp [hocc (i : ℤ)]

/-- Successful move application: on a state satisfying the invariant,
`make_move` at a key of the table succeeds, preserves the invariant,
hands the turn to the other color, and strictly decreases the number of
empty cells. -/
lemma make_move_ok_spec (nn : ℤ) (s : GameState) (loc : ℤ) (tf : List ℤ)
    (hInv : InvFull nn s) (hkey : s.valid_moves.lookup loc = some tf) :
    ∃ s', make_move s loc = Except.ok s' ∧ InvFull nn s' ∧
      s'.turn = s.turn.change_color ∧ emptyCount s' < emptyCount s := by
  obtain ⟨hn, h4, he, hcnt, hvm⟩ := hInv
  have hmem : (loc, tf) ∈ s.valid_moves := lookup_mem _ _ _ hkey
  rw [hvm] at hmem
  obtain ⟨h0, h1, hemp, htf, htfne⟩ := find_valid_moves_mem nn s.pieces s.turn loc tf hmem
  have hn2 : (2 : ℤ) ≤ nn := by linarith
  have hsound := all_can_capture_sound nn s.pieces s.turn loc hn2 h0 h1
  rw [← htf] at hsound
  have hcnt1 : CountInv (place s loc) :=
    place_CountInv s loc hcnt h0 (by rw [hn]; exact h1) hemp
  have hocc1 : ∀ x ∈ tf, 0 ≤ x ∧ x < (place s loc).n ^ 2 ∧ (place s loc).pieces x ≠ none := by
    intro x hx
    obtain ⟨hx0, hx1, hxp⟩ := hsound x hx
    refine ⟨hx0, by show x < s.n ^ 2; rw [hn]; exact hx1, ?_⟩
    show (if x = loc then some s.turn else s.pieces x) ≠ none
    by_cases hxeq : x = loc
    · rw [if_pos hxeq]; simp
    · rw [if_neg hxeq, hxp]; simp
  obtain ⟨s2, hok2, hcnt2, hn2', ht2, hv2, hocc2⟩ := flip_tiles_ok_spec tf (place s loc) hcnt1 hocc1
  refine ⟨update_valid_moves (switch_turns s2), ?_, ?_, ?_, ?_⟩
  · unfold make_move
    rw [if_pos ⟨h0, by rw [hn]; exact h1⟩]
    have hlk : (place s loc).valid_moves.lookup loc = some tf := hkey
    simp only [hlk, hok2]
  · refine ⟨?_, h4, he, update_CountInv (switch_CountInv hcnt2), ?_⟩
    · show s2.n = nn
      rw [hn2']; exact hn
    · show find_valid_moves (switch_turns s2).n _ _ = _
      have hsn : (switch_turns s2).n = nn := by show s2.n = nn; rw [hn2']; exact hn
      rw [hsn]
      rfl
  · show s2.turn.change_color = s.turn.change_color
    rw [ht2]
    rfl
  · have he1 : emptyCount (update_valid_moves (switch_turns s2)) = emptyCount s2 := rfl
    have he2 : emptyCount s2 = emptyCount (place s loc) :=
      emptyCount_eq_of_occ (place s loc) s2 hn2' hocc2
    rw [he1, he2]
    exact emptyCount_place_lt s loc h0 (by rw [hn]; exact h1) hemp

/-- Inversion form: any successful `make_move` from an invariant state
lands in an invariant state with the turn toggled and fewer empty cells. -/
lemma make_move_ok_inv (nn : ℤ) (s : GameState) (loc : ℤ) (s' : GameState)
    (hInv : InvFull nn s) (h : make_move s loc = Except.ok s') :
    InvFull nn s' ∧ s'.turn = s.turn.change_color ∧ emptyCount s' < emptyCount s := by
  by_cases hrange : 0 ≤ loc ∧ loc < s.n ^ 2
  · cases hlk : s.valid_moves.lookup loc with
    | none =>
      exfalso
      unfold make_move at h
      rw [if_pos hrange] at h
      have hlk' : (place s loc).valid_moves.lookup loc = none := hlk
      simp only [hlk'] at h
      exact Except.noConfusion h
    | some tf =>
      obtain ⟨s'', hok, hI, ht, hlt⟩ := make_move_ok_spec nn s loc tf hInv hlk
      rw [hok] at h
      obtain rfl : s'' = s' := Except.ok.inj h
      exact ⟨hI, ht, hlt⟩
  · exfalso
    unfold make_move at h
    rw [if_neg hrange] at h
    exact Except.noConfusion h

/-! ### Reachable states -/

/-- States reachable from `GameBoard(n)`: the initial setup, any
successful `make_move`, and the pass transition (`switch_turns`
followed by recomputing `valid_moves`) that `computer_move` performs
when a side has no move. -/
inductive Reachable (nn : ℤ) : GameState → Prop where
  | init : 4 ≤ nn → nn % 2 = 0 → Reachable nn (initState nn)
  | move (s : GameState) (loc : ℤ) (s' : GameState) :
      Reachable nn s → make_move s loc = Except.ok s' → Reachable nn s'
  | pass (s : GameState) :
      Reachable nn s → Reachable nn (update_valid_moves (switch_turns s))

lemma reachable_inv (nn : ℤ) (s : GameState) (h : Reachable nn s) :
    InvFull nn s := by
  induction h with
  | init h4 he => exact initState_inv nn h4 he
  | move s loc s' _ hok ih => exact (make_move_ok_inv nn s loc s' ih hok).1
  | pass s _ ih =>
    obtain ⟨hn, h4, he, hcnt, _⟩ := ih
    refine ⟨hn, h4, he, update_CountInv (switch_CountInv hcnt), ?_⟩
    show find_valid_moves (switch_turns s).n _ _ = _
    have hsn : (switch_turns s).n = nn := hn
    rw [hsn]
    rfl

/-! ### Characterization of `choose_move` -/

/-- The loop body of `choose_move`. -/
def chooseStep (acc : ℤ × ℤ) (kv : ℤ × List ℤ) : ℤ × ℤ :=
  if (kv.2.length : ℤ) > acc.2 then (kv.1, (kv.2.length : ℤ)) else acc

lemma choose_move_eq_foldl (table : List (ℤ × List ℤ)) :
    choose_move table = (table.foldl chooseStep (-1, 0)).1 := rfl

lemma choose_foldl_spec (t : List (ℤ × List ℤ)) : ∀ acc : ℤ × ℤ,
    (t.foldl chooseStep acc = acc ∧ ∀ kv ∈ t, (kv.2.length : ℤ) ≤ acc.2) ∨
    (∃ t1 kv t2, t = t1 ++ kv :: t2 ∧
      t.foldl chooseStep acc = (kv.1, (kv.2.length : ℤ)) ∧
      acc.2 < (kv.2.length : ℤ) ∧
      (∀ kv' ∈ t1, kv'.2.length < kv.2.length) ∧
      (∀ kv' ∈ t2, kv'.2.length ≤ kv.2.length)) := by
  induction t with
  | nil =>
    intro acc
    left
    exact ⟨rfl, by simp⟩
  | cons h rest ih =>
    intro acc
    by_cases hh : (h.2.length : ℤ) > acc.2
    · have hstep : chooseStep acc h = (h.1, (h.2.length : ℤ)) := if_pos hh
      rcases ih (h.1, (h.2.length : ℤ)) with ⟨heq, hall⟩ | ⟨t1, kv, t2, hsplit, heq, hgt, h1, h2⟩
      · right
        refine ⟨[], h, rest, rfl, ?_, hh, by simp, ?_⟩
        · rw [List.foldl_cons, hstep, heq]
        · intro kv' hkv'
          have hle := hall kv' hkv'
          simp only [] at hle
          exact_mod_cast hle
      · right
        refine ⟨h :: t1, kv, t2, by rw [hsplit, List.cons_append], ?_, ?_, ?_, h2⟩
        · rw [List.foldl_cons, hstep, heq]
        · simp only [] at hgt
          linarith
        · intro kv' hkv'
          rcases List.mem_cons.mp hkv' with rfl | hmem
          · simp only [] at hgt
            exact_mod_cast hgt
          · exact h1 kv' hmem
    · have hstep : chooseStep acc h = acc := if_neg hh
      rcases ih acc with ⟨heq, hall⟩ | ⟨t1, kv, t2, hsplit, heq, hgt, h1, h2⟩
      · left
        refine ⟨by rw [List.foldl_cons, hstep, heq], ?_⟩
        intro kv' hkv'
        rcases List.mem_cons.mp hkv' with rfl | hmem
        · linarith
        · exact hall kv' hmem
      · right
        refine ⟨h :: t1, kv, t2, by rw [hsplit, List.cons_append], ?_, hgt, ?_, h2⟩
        · rw [List.foldl_cons, hstep, heq]
        · intro kv' hkv'
          rcases List.mem_cons.mp hkv' with rfl | hmem
          · have : (kv'.2.length : ℤ) ≤ acc.2 := by linarith
            have : (kv'.2.length : ℤ) < (kv.2.length : ℤ) := by linarith
            exact_mod_cast this
          · exact h1 kv' hmem

/-- Behavior of `choose_move` on tables whose capture lists are all
non-empty (the `LegalMoveTable` invariant): `-1` on the empty table,
and otherwise the first key attaining the maximal capture-list
length. -/
lemma choose_move_spec (table : List (ℤ × List ℤ))
    (hne : ∀ kv ∈ table, kv.2 ≠ []) :
    (table = [] → choose_move table = -1) ∧
    (table ≠ [] → ∃ t1 k v t2, table = t1 ++ (k, v) :: t2 ∧
      choose_move table = k ∧
      (∀ kv ∈ t1, kv.2.length < v.length) ∧
      (∀ kv ∈ table, kv.2.length ≤ v.length)) := by
  constructor
  · rintro rfl
    rfl
  · intro hnonempty
    rcases choose_foldl_spec table (-1, 0) with ⟨heq, hall⟩ | ⟨t1, kv, t2, hsplit, heq, _, h1, h2⟩
    · exfalso
      obtain ⟨kv0, hkv0⟩ : ∃ kv0, kv0 ∈ table := by
        cases table with
        | nil => exact absurd rfl hnonempty
        | cons a rest => exact ⟨a, by simp⟩
      have hlen := hall kv0 hkv0
      have hne0 := hne kv0 hkv0
      have : 1 ≤ kv0.2.length := List.length_pos.mpr hne0
      simp only [] at hlen
      omega
    · refine ⟨t1, kv.1, kv.2, t2, by rw [hsplit], ?_, h1, ?_⟩
      · rw [choose_move_eq_foldl, heq]
      · intro kv' hkv'
        rw [hsplit] at hkv'
        rcases List.mem_append.mp hkv' with hmem | hmem
        · exact le_of_lt (h1 kv' hmem)
        · rcases List.mem_cons.mp hmem with rfl | hmem2
          · exact le_refl _
          · exact h2 kv' hmem2

lemma mem_lookup_isSome (l : List (ℤ × List ℤ)) (k : ℤ) (v : List ℤ)
    (h : (k, v) ∈ l) : ∃ v', l.lookup k = some v' := by
  induction l with
  | nil => simp at h
  | cons kv rest ih =>
    obtain ⟨k1, v1⟩ := kv
    by_cases hk : k = k1
    · exact ⟨v1, by simp [List.lookup, hk]⟩
    · have hbeq : (k == k1) = false := beq_eq_false_iff_ne.mpr hk
      rcases List.mem_cons.mp h with heq | hmem
      · exact absurd (congrArg Prod.fst heq) hk
      · obtain ⟨v', hv'⟩ := ih hmem
        exact ⟨v', by simp only [List.lookup, hbeq]; exact hv'⟩

/-! ### The computer player's turn loop -/

lemma pass_inv (nn : ℤ) (s : GameState) (hInv : InvFull nn s) :
    InvFull nn (update_valid_moves (switch_turns s)) := by
  obtain ⟨hn, h4, he, hcnt, _⟩ := hInv
  refine ⟨hn, h4, he, update_CountInv (switch_CountInv hcnt), ?_⟩
  show find_valid_moves (switch_turns s).n _ _ = _
  have hsn : (switch_turns s).n = nn := hn
  rw [hsn]
  rfl

/-- If `choose_move` returns `-1` on an invariant state's table, the
table is empty. -/
lemma choice_neg_one_empty (nn : ℤ) (s : GameState) (hInv : InvFull nn s)
    (h : choose_move s.valid_moves = -1) : s.valid_moves = [] := by
  obtain ⟨hn, h4, he, hcnt, hvm⟩ := hInv
  by_contra hnonempty
  have hne : ∀ kv ∈ s.valid_moves, kv.2 ≠ [] := by
    intro kv hkv
    rw [hvm] at hkv
    obtain ⟨k1, v1⟩ := kv
    exact (find_valid_moves_mem nn s.pieces s.turn k1 v1 hkv).2.2.2.2
  obtain ⟨t1, k, v, t2, hsplit, hck, _, _⟩ :=
    (choose_move_spec s.valid_moves hne).2 hnonempty
  have hmem : (k, v) ∈ s.valid_moves := by rw [hsplit]; simp
  rw [hvm] at hmem
  have hk0 := (find_valid_moves_mem nn s.pieces s.turn k v hmem).1
  rw [h] at hck
  omega

/-- Postcondition of `computer_move` on invariant states with the
computer (white) to move and enough fuel: the call returns, the
invariant holds for the final state, the turn is back with the human
(black), `end_game` was invoked inside only on a full board, control
returns only when the human has a move or the computer had none, and a
`False` result means the computer's final move table was empty. -/
lemma computer_move_spec (nn : ℤ) (fuel : ℕ) : ∀ (s : GameState),
    InvFull nn s → s.turn = Color.white → emptyCount s < fuel →
    ∃ f moved ended, computer_move fuel s = Except.ok (f, moved, ended) ∧
      InvFull nn f ∧ f.turn = Color.black ∧
      (ended = true → is_full f = true) ∧
      (ended = false → f.valid_moves ≠ [] ∨ moved = false) ∧
      (moved = false → find_valid_moves nn f.pieces Color.white = []) := by
  induction fuel with
  | zero =>
    intro s _ _ hfuel
    omega
  | succ fuel ih =>
    intro s hInv hturn hfuel
    by_cases hch : choose_move s.valid_moves = -1
    · have htable : s.valid_moves = [] := choice_neg_one_empty nn s hInv hch
      refine ⟨update_valid_moves (switch_turns s), false, false, ?_, pass_inv nn s hInv,
        ?_, by simp, fun _ => Or.inr rfl, ?_⟩
      · show computer_move (fuel + 1) s = _
        unfold computer_move
        rw [if_neg (by simp [hch])]
      · show s.turn.change_color = Color.black
        rw [hturn]
        rfl
      · intro _
        show find_valid_moves nn (switch_turns s).pieces Color.white = []
        have : find_valid_moves nn s.pieces Color.white = s.valid_moves := by
          rw [hInv.2.2.2.2, hturn]
        rw [show (switch_turns s).pieces = s.pieces from rfl, this, htable]
    · obtain ⟨hn, h4, he, hcnt, hvm⟩ := hInv
      have hne : ∀ kv ∈ s.valid_moves, kv.2 ≠ [] := by
        intro kv hkv
        rw [hvm] at hkv
        obtain ⟨k1, v1⟩ := kv
        exact (find_valid_moves_mem nn s.pieces s.turn k1 v1 hkv).2.2.2.2
      have hnonempty : s.valid_moves ≠ [] := by
        intro hcon
        exact hch ((choose_move_spec s.valid_moves hne).1 hcon)
      obtain ⟨t1, k, v, t2, hsplit, hck, _, _⟩ :=
        (choose_move_spec s.valid_moves hne).2 hnonempty
      have hmem : (k, v) ∈ s.valid_moves := by rw [hsplit]; simp
      obtain ⟨tf, hlk⟩ := mem_lookup_isSome s.valid_moves k v hmem
      obtain ⟨s1, hok, hInv1, ht1, hlt⟩ :=
        make_move_ok_spec nn s k tf ⟨hn, h4, he, hcnt, hvm⟩ hlk
      have ht1b : s1.turn = Color.black := by rw [ht1, hturn]; rfl
      have hunfold : computer_move (fuel + 1) s =
          (if is_full s1 then Except.ok (s1, true, true)
           else if s1.valid_moves.length = 0 then
             computer_move fuel (update_valid_moves (switch_turns s1))
           else Except.ok (s1, true, false)) := by
        conv_lhs => unfold computer_move
        rw [if_pos (by simp [hch]), hck, hok]
      by_cases hfull : is_full s1
      · refine ⟨s1, true, true, ?_, hInv1, ht1b, fun _ => hfull, ?_, ?_⟩
        · rw [hunfold, if_pos hfull]
        · intro hcon
          exact absurd hcon (by simp)
        · intro hcon
          exact absurd hcon (by simp)
      · by_cases hlen : s1.valid_moves.length = 0
        · set s2 := update_valid_moves (switch_turns s1) with hs2
          have hInv2 : InvFull nn s2 := pass_inv nn s1 hInv1
          have ht2 : s2.turn = Color.white := by
            show s1.turn.change_color = Color.white
            rw [ht1b]
            rfl
          have hec2 : emptyCount s2 = emptyCount s1 := rfl
          have hfuel2 : emptyCount s2 < fuel := by omega
          obtain ⟨f, moved, ended, heq, hIf, htf, hef, hvf, hmf⟩ := ih s2 hInv2 ht2 hfuel2
          refine ⟨f, moved, ended, ?_, hIf, htf, hef, hvf, hmf⟩
          rw [hunfold, if_neg hfull, if_pos hlen]
          exact heq
        · refine ⟨s1, true, false, ?_, hInv1, ht1b, ?_, ?_, ?_⟩
          · rw [hunfold, if_neg hfull, if_neg hlen]
          · intro hcon
            exact absurd hcon (by simp)
          · intro _
            left
            intro hcon
            exact hlen (by rw [hcon]; rfl)
          · intro hcon
            exact absurd hcon (by simp)

/-! ### The click handler `play` -/

/-- A click that does not resolve to a legal square leaves an
in-progress (not full, human-to-move) state unchanged. -/
lemma play_illegal_noop (fuel : ℕ) (s : GameState) (x y : ℤ)
    (hclick : firstClickedValid s x y = none) (hnotfull : is_full s = false)
    (hturn : s.turn = Color.black) :
    play fuel s x y = Except.ok (s, false) := by
  unfold play
  rw [hclick]
  simp only [hnotfull, Bool.false_eq_true, if_false, hturn]
  rfl

/-- The move `play` executes is always a key of the current table. -/
lemma play_click_is_key (s : GameState) (x y loc : ℤ)
    (h : firstClickedValid s x y = some loc) :
    (s.valid_moves.lookup loc).isSome := by
  unfold firstClickedValid at h
  have := List.find?_some h
  exact (Bool.and_eq_true _ _ ▸ this).2

/-- An in-range location that is not a key of the table makes
`make_move` raise `KeyError` *after* placing the tile: the error state
is `place s loc`, not `s`. -/
lemma make_move_nonkey_error (s : GameState) (loc : ℤ)
    (h0 : 0 ≤ loc) (h1 : loc < s.n ^ 2) (hlk : s.valid_moves.lookup loc = none) :
    make_move s loc = Except.error (place s loc) := by
  unfold make_move
  rw [if_pos ⟨h0, h1⟩]
  have hlk' : (place s loc).valid_moves.lookup loc = none := hlk
  simp only [hlk']

/-- Game-over analysis of `play` on an invariant state with enough
fuel: the call returns, and the game is declared over only when the
final board is full or both sides are out of moves (the computer's
table for white and the human's freshly computed table are both
empty). -/
lemma play_end_spec (nn : ℤ) (fuel : ℕ) (s : GameState) (x y : ℤ)
    (hInv : InvFull nn s) (hfuel : emptyCount s < fuel) :
    ∃ f ended, play fuel s x y = Except.ok (f, ended) ∧
      (ended = true → is_full f = true ∨
        (find_valid_moves nn f.pieces Color.white = [] ∧ f.valid_moves = [])) := by
  have hstep : ∃ t, (match firstClickedValid s x y with
      | some loc => make_move s loc
      | none => Except.ok s) = Except.ok t ∧ InvFull nn t ∧ emptyCount t ≤ emptyCount s := by
    cases hclick : firstClickedValid s x y with
    | none => exact ⟨s, rfl, hInv, le_refl _⟩
    | some loc =>
      have hksome := play_click_is_key s x y loc hclick
      obtain ⟨tf, hlk⟩ := Option.isSome_iff_exists.mp hksome
      obtain ⟨t, hok, hIt, _, hlt⟩ := make_move_ok_spec nn s loc tf hInv hlk
      exact ⟨t, hok, hIt, le_of_lt hlt⟩
  obtain ⟨t, hafter, hIt, hle⟩ := hstep
  by_cases hfull : is_full t
  · refine ⟨{ t with turn := Color.black }, true, ?_, ?_⟩
    · unfold play
      rw [hafter]
      simp only [hfull, if_true]
      rfl
    · intro _
      left
      exact hfull
  · have hfb : is_full t = false := by
      cases h : is_full t
      · rfl
      · exact absurd h hfull
    by_cases hwhite : t.turn = Color.white
    · obtain ⟨f, moved, ended2, hcm, hIf, _, hef, _, hmf⟩ :=
        computer_move_spec nn fuel t hIt hwhite (lt_of_le_of_lt hle hfuel)
      refine ⟨f, false || ended2 || (!moved && decide (f.valid_moves.length = 0)), ?_, ?_⟩
      · unfold play
        rw [hafter]
        simp only [hfb, Bool.false_eq_true, if_false, hwhite, if_true, hcm]
      · intro hend
        simp only [Bool.false_or, Bool.or_eq_true, Bool.and_eq_true,
          Bool.not_eq_true', decide_eq_true_eq] at hend
        rcases hend with hend2 | ⟨hmv, hlen⟩
        · exact Or.inl (hef hend2)
        · refine Or.inr ⟨hmf hmv, ?_⟩
          exact List.length_eq_zero.mp hlen
    · refine ⟨t, false, ?_, ?_⟩
      · unfold play
        rw [hafter]
        simp only [hfb, Bool.false_eq_true, if_false]
        rw [if_neg hwhite]
      · intro hcon
        exact absurd hcon (by simp)

/-! ### Witness fixtures -/

/-- A 4×4 board with a white tile at 1 and a black tile at 2. -/
def wboard1 : ℤ → Option Color := fun i =>
  if i = 1 then some Color.white else if i = 2 then some Color.black else none

/-- The 4×4 board after black's opening move at square 4 (tiles at
4, 5, 6, 9 black and 10 white). -/
def wpieces5 : ℤ → Option Color := fun i =>
  if i = 10 then some Color.white
  else if i = 4 ∨ i = 5 ∨ i = 6 ∨ i = 9 then some Color.black
  else none

/-- The state after that opening move: white (the computer) to move. -/
def wstate5 : GameState :=
  { n := 4, pieces := wpieces5, black := 4, white := 1,
    turn := Color.white, valid_moves := find_valid_moves 4 wpieces5 Color.white }

/-! ### The claims -/

/-- C1: for every even board side `nn ≥ 4`, every in-range location,
every board contents, turn color and direction,
`can_capture_in_direction` returns exactly the run of consecutive
opponent-color tiles starting one step from the location when that run
is non-empty and terminated by an own-color tile within the directional
bound (the terminating tile is not included), and returns `[]` in every
other case — in particular when the immediately adjacent cell is empty
or off-board, or when the scan reaches the board edge or an empty cell
before an own-color tile. -/
theorem C1_capture_characterization (nn : ℤ) (h4 : 4 ≤ nn) (he : nn % 2 = 0)
    (pieces : ℤ → Option Color) (turn : Color) (location : ℤ)
    (h0 : 0 ≤ location) (h1 : location < nn ^ 2) (d : Direction) :
    (∀ m : ℕ, captureCond nn pieces turn (location / nn) (location % nn) d m →
      can_capture_in_direction nn pieces turn location d = runCells nn location d m) ∧
    ((∀ m : ℕ, ¬ captureCond nn pieces turn (location / nn) (location % nn) d m) →
      can_capture_in_direction nn pieces turn location d = []) := by
  obtain ⟨hdec, hr, hr', hc, hc'⟩ := index_decompose nn location (by linarith) h0 h1
  have hspec := capture_spec nn (location / nn) (location % nn) (by linarith)
    hr hr' hc hc' pieces turn d
  rw [← hdec] at hspec
  exact hspec

/-- Witness for C1: on a 4×4 board with a white tile at 1 and a black
tile at 2, scanning east from square 0 as black. -/
theorem C1_capture_characterization_witness :
    ((4 : ℤ) ≤ 4 ∧ (4 : ℤ) % 2 = 0 ∧ (0 : ℤ) ≤ 0 ∧ (0 : ℤ) < 4 ^ 2) ∧
    ((∀ m : ℕ, captureCond 4 wboard1 Color.black (0 / 4) (0 % 4) Direction.e m →
      can_capture_in_direction 4 wboard1 Color.black 0 Direction.e =
        runCells 4 0 Direction.e m) ∧
    ((∀ m : ℕ, ¬ captureCond 4 wboard1 Color.black (0 / 4) (0 % 4) Direction.e m) →
      can_capture_in_direction 4 wboard1 Color.black 0 Direction.e = [])) :=
  ⟨⟨by norm_num, by norm_num, by norm_num, by norm_num⟩,
    C1_capture_characterization 4 (by norm_num) (by norm_num) wboard1 Color.black 0
      (by norm_num) (by norm_num) Direction.e⟩

/-- C2: in every reachable game state the black and white counters sum
to the number of occupied cells and are both non-negative. -/
theorem C2_count_invariant (nn : ℤ) (s : GameState) (h : Reachable nn s) :
    s.black + s.white = occupiedCells s ∧ 0 ≤ s.black ∧ 0 ≤ s.white := by
  obtain ⟨-, -, -, ⟨hb, hw⟩, -⟩ := reachable_inv nn s h
  rw [hb, hw]
  exact ⟨countColor_black_add_white s, countColor_nonneg s _, countColor_nonneg s _⟩

/-- Witness for C2: the initial 4×4 state is reachable and satisfies
the count invariant. -/
theorem C2_count_invariant_witness :
    Reachable 4 (initState 4) ∧
    ((initState 4).black + (initState 4).white = occupiedCells (initState 4) ∧
      0 ≤ (initState 4).black ∧ 0 ≤ (initState 4).white) :=
  ⟨Reachable.init (by norm_num) (by norm_num),
    C2_count_invariant 4 (initState 4) (Reachable.init (by norm_num) (by norm_num))⟩

/-- C3 counterexample: on the initial 8×8 state, square 0 is in range
and not a key of the legal-move table, yet `make_move` does not leave
the state unchanged: it places a black tile at 0 (bumping the black
counter) before failing with the lookup error. -/
theorem C3_counterexample :
    ((0 : ℤ) ≤ 0 ∧ (0 : ℤ) < (initState 8).n ^ 2) ∧
    (initState 8).valid_moves.lookup 0 = none ∧
    make_move (initState 8) 0 = Except.error (place (initState 8) 0) ∧
    (place (initState 8) 0).pieces 0 = some Color.black ∧
    (initState 8).pieces 0 = none ∧
    (place (initState 8) 0).black = (initState 8).black + 1 :=
  ⟨⟨by decide, by decide⟩, by decide, rfl, by decide, by decide, by decide⟩

/-- C3 (amended): `make_move` on an in-range non-key location mutates
the state (the placed tile persists) and then raises; the graceful
rejection happens one level up, in `play`, which only ever invokes
`make_move` on keys of the table and is a no-op on any click that does
not resolve to a legal square. -/
theorem C3_amended_illegal_move (s : GameState) :
    (∀ loc : ℤ, 0 ≤ loc → loc < s.n ^ 2 → s.valid_moves.lookup loc = none →
      make_move s loc = Except.error (place s loc)) ∧
    (∀ (fuel : ℕ) (x y : ℤ), firstClickedValid s x y = none →
      is_full s = false → s.turn = Color.black →
      play fuel s x y = Except.ok (s, false)) ∧
    (∀ (x y loc : ℤ), firstClickedValid s x y = some loc →
      (s.valid_moves.lookup loc).isSome) :=
  ⟨fun loc h0 h1 hlk => make_move_nonkey_error s loc h0 h1 hlk,
    fun fuel x y hclick hfull hturn => play_illegal_noop fuel s x y hclick hfull hturn,
    fun x y loc h => play_click_is_key s x y loc h⟩

/-- Witness for C3 (amended): a click at pixel (−1000, −1000) on the
initial 8×8 board hits no square and `play` returns the state
unchanged. -/
theorem C3_amended_illegal_move_witness :
    (firstClickedValid (initState 8) (-1000) (-1000) = none ∧
      is_full (initState 8) = false ∧ (initState 8).turn = Color.black) ∧
    play 1 (initState 8) (-1000) (-1000) = Except.ok (initState 8, false) :=
  ⟨⟨by decide, by decide, by decide⟩,
    (C3_amended_illegal_move (initState 8)).2.1 1 (-1000) (-1000)
      (by decide) (by decide) (by decide)⟩

/-- C4 counterexample: on a 4×4 board, `set_max_min` for direction N
from square 0 returns 15 — not the top cell of column 0 (which is 12),
and not an index reachable from 0 by one-step moves north at all. -/
theorem C4_counterexample :
    set_max_min 4 0 Direction.n = 15 ∧
    (15 : ℤ) ≠ (4 - 1) * 4 + 0 % 4 ∧
    (∀ k : ℕ, k < 4 →
      ¬(onBoard 4 0 0 Direction.n ((k : ℤ) + 1) ∧
        (0 : ℤ) + ((k : ℤ) + 1) * set_increment 4 Direction.n = 15)) := by
  decide

/-- C4 (amended): `set_max_min` does not return the furthest reachable
index in general — for N it always returns `n^2 - 1` and for S always
`0` — but it is exactly adequate as a scan bound: a value
`location + (j+1) * increment` lies within the (direction-adjusted)
bound iff the `(j+1)`-step move in that direction keeps the
location on the board without row wraparound. -/
theorem C4_amended_directional_bound (nn r c : ℤ) (h4 : 4 ≤ nn)
    (he : nn % 2 = 0) (hr : 0 ≤ r) (hr' : r < nn) (hc : 0 ≤ c) (hc' : c < nn)
    (d : Direction) (j : ℕ) :
    set_max_min nn (r * nn + c) Direction.n = nn ^ 2 - 1 ∧
    set_max_min nn (r * nn + c) Direction.s = 0 ∧
    ((j < pyRangeLen (r * nn + c + set_increment nn d)
        (if set_increment nn d ≤ 0 then set_max_min nn (r * nn + c) d - 1
         else set_max_min nn (r * nn + c) d + 1)
        (set_increment nn d)) ↔
      onBoard nn r c d ((j : ℤ) + 1)) :=
  ⟨rfl, rfl, len_iff nn r c (by linarith) hr hr' hc hc' d j⟩

/-- Witness for C4 (amended): square (1, 1) of a 4×4 board, direction
NE, first step. -/
theorem C4_amended_directional_bound_witness :
    ((4 : ℤ) ≤ 4 ∧ (4 : ℤ) % 2 = 0 ∧ (0 : ℤ) ≤ 1 ∧ (1 : ℤ) < 4) ∧
    (set_max_min 4 (1 * 4 + 1) Direction.n = 4 ^ 2 - 1 ∧
     set_max_min 4 (1 * 4 + 1) Direction.s = 0 ∧
     ((0 < pyRangeLen (1 * 4 + 1 + set_increment 4 Direction.ne)
        (if set_increment 4 Direction.ne ≤ 0
         then set_max_min 4 (1 * 4 + 1) Direction.ne - 1
         else set_max_min 4 (1 * 4 + 1) Direction.ne + 1)
        (set_increment 4 Direction.ne)) ↔
      onBoard 4 1 1 Direction.ne ((0 : ℤ) + 1))) :=
  ⟨⟨by norm_num, by norm_num, by norm_num, by norm_num⟩,
    C4_amended_directional_bound 4 1 1 (by norm_num) (by norm_num) (by norm_num)
      (by norm_num) (by norm_num) (by norm_num) Direction.ne 0⟩

/-- C5: the computer's turn loop.  (i) From any invariant state with
white to move and fuel exceeding the number of empty cells,
`computer_move` returns with the invariant intact, black to move, with
`end_game` invoked inside only on a full board, and control handed back
only when the human has a legal move or the computer had none (a
`False` result means the computer's final table was empty).  (ii) When
a computer move leaves the board not full and the opponent without
moves, `computer_move` recurses: it switches the turn back, recomputes
the table and moves again before returning.  (iii) At the `play` level
the game is declared over only when the final board is full or both
sides in succession have no legal moves. -/
theorem C5_computer_turn_loop (nn : ℤ) :
    (∀ (fuel : ℕ) (s : GameState), InvFull nn s → s.turn = Color.white →
      emptyCount s < fuel →
      ∃ f moved ended, computer_move fuel s = Except.ok (f, moved, ended) ∧
        InvFull nn f ∧ f.turn = Color.black ∧
        (ended = true → is_full f = true) ∧
        (ended = false → f.valid_moves ≠ [] ∨ moved = false) ∧
        (moved = false → find_valid_moves nn f.pieces Color.white = [])) ∧
    (∀ (fuel : ℕ) (t s1 : GameState), choose_move t.valid_moves ≠ -1 →
      make_move t (choose_move t.valid_moves) = Except.ok s1 →
      is_full s1 = false → s1.valid_moves = [] →
      computer_move (fuel + 1) t =
        computer_move fuel (update_valid_moves (switch_turns s1))) ∧
    (∀ (fuel : ℕ) (s : GameState) (x y : ℤ), InvFull nn s →
      emptyCount s < fuel →
      ∃ f ended, play fuel s x y = Except.ok (f, ended) ∧
        (ended = true → is_full f = true ∨
          (find_valid_moves nn f.pieces Color.white = [] ∧ f.valid_moves = []))) := by
  refine ⟨computer_move_spec nn, ?_, fun fuel s x y hInv hfuel =>
    play_end_spec nn fuel s x y hInv hfuel⟩
  intro fuel t s1 hch hok hfull hvm
  have hstep : computer_move (fuel + 1) t =
      (if is_full s1 then Except.ok (s1, true, true)
       else if s1.valid_moves.length = 0 then
         computer_move fuel (update_valid_moves (switch_turns s1))
       else Except.ok (s1, true, false)) := by
    conv_lhs => unfold computer_move
    rw [if_pos (by simp [hch]), hok]
  rw [hstep, if_neg (by simp [hfull]),
    if_pos (by rw [hvm]; rfl : s1.valid_moves.length = 0)]

/-- Witness for C5: the 4×4 position after black's opening move at
square 4, computer to move, with fuel 12. -/
theorem C5_computer_turn_loop_witness :
    (InvFull 4 wstate5 ∧ wstate5.turn = Color.white ∧ emptyCount wstate5 < 12) ∧
    (∃ f moved ended, computer_move 12 wstate5 = Except.ok (f, moved, ended) ∧
      InvFull 4 f ∧ f.turn = Color.black ∧
      (ended = true → is_full f = true) ∧
      (ended = false → f.valid_moves ≠ [] ∨ moved = false) ∧
      (moved = false → find_valid_moves 4 f.pieces Color.white = [])) :=
  ⟨⟨⟨rfl, by norm_num, by norm_num, ⟨by decide, by decide⟩, rfl⟩, rfl, by decide⟩,
    (C5_computer_turn_loop 4).1 12 wstate5
      ⟨rfl, by norm_num, by norm_num, ⟨by decide, by decide⟩, rfl⟩ rfl (by decide)⟩

/-- C6: `choose_move` returns `-1` on the empty table; on a non-empty
table (all of whose capture lists are non-empty, per the
`LegalMoveTable` invariant) it returns the first key, in the table's
insertion order, attaining the maximal capture-list length; and on the
table `{1:[a], 2:[a,b], 3:[a,b,c], 4:[a,b,c,d], 5:[a]}` it returns
`4`. -/
theorem C6_choose_move (table : List (ℤ × List ℤ))
    (hne : ∀ kv ∈ table, kv.2 ≠ []) :
    (table = [] → choose_move table = -1) ∧
    (table ≠ [] → ∃ t1 k v t2, table = t1 ++ (k, v) :: t2 ∧
      choose_move table = k ∧
      (∀ kv ∈ t1, kv.2.length < v.length) ∧
      (∀ kv ∈ table, kv.2.length ≤ v.length)) ∧
    (∀ a b c dd : ℤ,
      choose_move [(1, [a]), (2, [a, b]), (3, [a, b, c]),
        (4, [a, b, c, dd]), (5, [a])] = 4) :=
  ⟨(choose_move_spec table hne).1, (choose_move_spec table hne).2,
    fun _ _ _ _ => rfl⟩

/-- Witness for C6: the singleton table `{7 : [3]}`. -/
theorem C6_choose_move_witness :
    (∀ kv ∈ [((7 : ℤ), [(3 : ℤ)])], kv.2 ≠ []) ∧
    (([((7 : ℤ), [(3 : ℤ)])] : List (ℤ × List ℤ)) = [] →
      choose_move [((7 : ℤ), [(3 : ℤ)])] = -1) ∧
    (([((7 : ℤ), [(3 : ℤ)])] : List (ℤ × List ℤ)) ≠ [] →
      ∃ t1 k v t2, ([((7 : ℤ), [(3 : ℤ)])] : List (ℤ × List ℤ)) = t1 ++ (k, v) :: t2 ∧
        choose_move [((7 : ℤ), [(3 : ℤ)])] = k ∧
        (∀ kv ∈ t1, kv.2.length < v.length) ∧
        (∀ kv ∈ [((7 : ℤ), [(3 : ℤ)])], kv.2.length ≤ v.length)) ∧
    (∀ a b c dd : ℤ,
      choose_move [(1, [a]), (2, [a, b]), (3, [a, b, c]),
        (4, [a, b, c, dd]), (5, [a])] = 4) :=
  ⟨by decide, (C6_choose_move [((7 : ℤ), [(3 : ℤ)])] (by decide)).1,
    (C6_choose_move [((7 : ℤ), [(3 : ℤ)])] (by decide)).2.1,
    (C6_choose_move [((7 : ℤ), [(3 : ℤ)])] (by decide)).2.2⟩

/-- C7: the initial 8×8 state: the center squares are `(35, 36, 28,
27)` (`0.5·(n²+n)` and its offsets); they hold two black and two white
tiles with equal colors diagonally opposite; every other square is
empty; black is to move; and the initial legal-move table has exactly
4 entries, each capturing exactly 1 tile. -/
theorem C7_initial_setup :
    find_center_squares 8 = [35, 36, 28, 27] ∧
    (initState 8).pieces 35 = some Color.black ∧
    (initState 8).pieces 28 = some Color.black ∧
    (initState 8).pieces 36 = some Color.white ∧
    (initState 8).pieces 27 = some Color.white ∧
    (∀ i ∈ List.range 64, (i : ℤ) ∉ ([27, 28, 35, 36] : List ℤ) →
      (initState 8).pieces (i : ℤ) = none) ∧
    (initState 8).turn = Color.black ∧
    (initState 8).black = 2 ∧ (initState 8).white = 2 ∧
    (initState 8).valid_moves.length = 4 ∧
    (∀ kv ∈ (initState 8).valid_moves, kv.2.length = 1) := by
  decide

/-- C8 counterexample: a click at `(0, 25)` on the square with origin
`(0, 0)` and size 50 lies inside the claimed closed-open box but
`was_clicked` rejects it (the source compares strictly on all four
sides). -/
theorem C8_counterexample :
    was_clicked 0 0 50 0 25 = false ∧
    ((0 : ℤ) ≤ 0 ∧ (0 : ℤ) < 0 + 50 ∧ (0 : ℤ) ≤ 25 ∧ (25 : ℤ) < 0 + 50) := by
  decide

lemma grid_line_miss (corner c m : ℤ) :
    ¬(corner + c * 50 < corner + 50 * m ∧ corner + 50 * m < corner + c * 50 + 50) := by
  omega

/-- C8 (amended): the hit test is the *open* box
`(sx, sx+size) × (sy, sy+size)` on both coordinates, so a click whose
`x` or `y` coordinate lies on any grid line (`corner + 50·m`) is inside
no square of the board. -/
theorem C8_amended_hit_test :
    (∀ sx sy size x y : ℤ, was_clicked sx sy size x y = true ↔
      (sx < x ∧ x < sx + size ∧ sy < y ∧ y < sy + size)) ∧
    (∀ nn ℓ m y : ℤ,
      was_clicked (squareX nn ℓ) (squareY nn ℓ) 50 (-nn * 50 / 2 + 50 * m) y = false) ∧
    (∀ nn ℓ m x : ℤ,
      was_clicked (squareX nn ℓ) (squareY nn ℓ) 50 x (-nn * 50 / 2 + 50 * m) = false) := by
  refine ⟨?_, ?_, ?_⟩
  · intro sx sy size x y
    unfold was_clicked
    exact decide_eq_true_iff
  · intro nn ℓ m y
    unfold was_clicked
    rw [decide_eq_false_iff_not]
    intro ⟨hx1, hx2, _, _⟩
    exact grid_line_miss (-nn * 50 / 2) (ℓ % nn) m ⟨by unfold squareX at hx1; linarith,
      by unfold squareX at hx2; linarith⟩
  · intro nn ℓ m x
    unfold was_clicked
    rw [decide_eq_false_iff_not]
    intro ⟨_, _, hy1, hy2⟩
    exact grid_line_miss (-nn * 50 / 2) (ℓ / nn) m ⟨by unfold squareY at hy1; linarith,
      by unfold squareY at hy2; linarith⟩

/-- C9: on the failing input (prior file `"Alice 10\nBob 5\n"`, name
`"Eve"`, black count 3 — not a new high score) the code *overwrites*
the bytes after the first line instead of appending: `"Bob 5\n"` is
destroyed.  The high-score and missing-file branches do match the
claim. -/
theorem C9_save_score_behavior :
    save_score (some ("Alice 10\nBob 5\n".data)) ("Eve".data) 3 =
      some ("Alice 10\nEve 3\n".data) ∧
    save_score (some ("Alice 10\nBob 5\n".data)) ("Eve".data) 3 ≠
      some ("Alice 10\nBob 5\nEve 3\n".data) ∧
    save_score (some ("Alice 10\nBob 5\n".data)) ("Eve".data) 12 =
      some ("Eve 12\nAlice 10\nBob 5\n".data) ∧
    save_score none ("Eve".data) 7 = some ("Eve 7\n".data) := by
  decide

/-- The state produced by a successful `flip_tile` on a cell holding a
`col` tile (proof-layer abbreviation of the record built in
`flip_tile`). -/
def flipped (s : GameState) (loc : ℤ) (col : Color) : GameState :=
  { s with
    pieces := fun i => if i = loc then some col.change_color else s.pieces i
    white := if col.change_color = Color.white then s.white + 1
      else if col.change_color = Color.black then s.white - 1 else s.white
    black := if col.change_color = Color.white then s.black - 1
      else if col.change_color = Color.black then s.black + 1 else s.black }

lemma flip_tile_eq (s : GameState) (loc : ℤ) (col : Color)
    (hp : s.pieces loc = some col) :
    flip_tile s loc = Except.ok (flipped s loc col) := by
  unfold flip_tile flipped
  rw [hp]

/-- C10: `flip_tile` on an occupied cell toggles that tile's color and
moves exactly one unit of count from the former color to the new one
(preserving `black + white` and all other cells), and applying it twice
is the identity on the tile's color and on both counters. -/
theorem C10_flip_involution (s : GameState) (loc : ℤ) (col : Color)
    (hp : s.pieces loc = some col) :
    ∃ s1 s2, flip_tile s loc = Except.ok s1 ∧
      s1.pieces loc = some col.change_color ∧
      (∀ x, x ≠ loc → s1.pieces x = s.pieces x) ∧
      s1.black + s1.white = s.black + s.white ∧
      (col = Color.black → s1.white = s.white + 1 ∧ s1.black = s.black - 1) ∧
      (col = Color.white → s1.black = s.black + 1 ∧ s1.white = s.white - 1) ∧
      flip_tile s1 loc = Except.ok s2 ∧
      s2.pieces loc = some col ∧
      s2.black = s.black ∧ s2.white = s.white := by
  have h1 := flip_tile_eq s loc col hp
  have hp1 : (flipped s loc col).pieces loc = some col.change_color := by
    simp [flipped]
  have h2 := flip_tile_eq (flipped s loc col) loc col.change_color hp1
  refine ⟨flipped s loc col, flipped (flipped s loc col) loc col.change_color,
    h1, hp1, fun x hx => by simp [flipped, hx], ?_, ?_, ?_, h2, ?_, ?_, ?_⟩
  · cases col <;> simp [flipped, Color.change_color]
  · rintro rfl
    constructor <;> simp [flipped, Color.change_color]
  · rintro rfl
    constructor <;> simp [flipped, Color.change_color]
  · cases col <;> simp [flipped, Color.change_color]
  · cases col <;> simp [flipped, Color.change_color]
  · cases col <;> simp [flipped, Color.change_color]

/-- Witness for C10: the white start tile at square 5 of the initial
4×4 board. -/
theorem C10_flip_involution_witness :
    (initState 4).pieces 5 = some Color.white ∧
    (∃ s1 s2, flip_tile (initState 4) 5 = Except.ok s1 ∧
      s1.pieces 5 = some Color.white.change_color ∧
      (∀ x, x ≠ 5 → s1.pieces x = (initState 4).pieces x) ∧
      s1.black + s1.white = (initState 4).black + (initState 4).white ∧
      (Color.white = Color.black → s1.white = (initState 4).white + 1 ∧
        s1.black = (initState 4).black - 1) ∧
      (Color.white = Color.white → s1.black = (initState 4).black + 1 ∧
        s1.white = (initState 4).white - 1) ∧
      flip_tile s1 5 = Except.ok s2 ∧
      s2.pieces 5 = some Color.white ∧
      s2.black = (initState 4).black ∧ s2.white = (initState 4).white) :=
  ⟨by decide, C10_flip_involution (initState 4) 5 Color.white (by decide)⟩

end Othello
